import Mathlib

/-!
# taflaj/merge: a verification development

A shallow embedding of `models/models.go` (the record parser), `models/database.go`
(the record store and the record reader) and the parts of `main.go` that use them.

Go strings are byte sequences; they are embedded as lists whose elements each stand for
one byte.  The Go `time` package and the SQLite engine are libraries outside the
repository: the `time` operations the program calls are taken as a parameter
(`TimeLib`), the engine is embedded by the meaning of the four SQL statements the
program issues.
-/

namespace Merge

/-! ## Go strings -/

/-- A Go string: a finite sequence of bytes, each element standing for one byte. -/
abbrev GoString := List Char

/-- An error value (the text of a Go `error`). -/
abbrev Error := String

/-- The Go expression `s[lo:hi]`; `none` is the run-time panic for indices out of range. -/
def slice? (s : GoString) (lo hi : Int) : Option GoString :=
  if 0 ≤ lo ∧ lo ≤ hi ∧ hi ≤ (s.length : Int) then
    some ((s.drop lo.toNat).take (hi - lo).toNat)
  else none

/-- The Go expression `s[:hi]`. -/
def sliceTo? (s : GoString) (hi : Int) : Option GoString :=
  slice? s 0 hi

/-- The Go expression `s[lo:]`. -/
def sliceFrom? (s : GoString) (lo : Int) : Option GoString :=
  slice? s lo s.length

/-- The fields of `strings.Split(s, sep)` for a one-byte separator: the text is cut at
every occurrence of `sep`, so the result has one more field than there are separators
(`Split "" sep` is the single empty field). -/
def Split : GoString → Char → List GoString
  | [], _ => [[]]
  | c :: cs, sep =>
    if c = sep then [] :: Split cs sep
    else
      match Split cs sep with
      | [] => [[c]]
      | f :: fs => (c :: f) :: fs

/-- The position of the first occurrence of the byte `b` in `s`, if there is one. -/
def indexByte? : GoString → Char → Option Nat
  | [], _ => none
  | c :: cs, b => if c = b then some 0 else (indexByte? cs b).map (· + 1)

/-- The Go call `strings.Index(s, sep)` for a one-byte separator: the index of the first
occurrence, or `-1`. -/
def Index (s : GoString) (b : Char) : Int :=
  match indexByte? s b with
  | some i => (i : Int)
  | none => -1

/-! ## The `time` package, as far as the program uses it -/

/-- The operations of Go's `time` package that the program calls, for the layout
`Layout = "20060102 150405 MST"` and for the process's local time zone. -/
structure TimeLib where
  /-- The values of `time.Time`. -/
  Time : Type
  /-- The call `time.Parse(Layout, value)`. -/
  Parse : GoString → Except Error Time
  /-- The call `t.Format(Layout)`. -/
  Format : Time → GoString
  /-- The call `t.Local()`. -/
  Local : Time → Time
  /-- The call `t.Unix()`: the instant, in seconds since the epoch. Chronological
  order is the order of these instants. -/
  Unix : Time → Int

/-! ## models/models.go -/

/-- Record contains the formatted message shared on the pubsub channel.  The Go field
`TimeStamp` is a pointer to the time; a record here has its time stamp, as every record
that `NewRecord` makes. -/
structure Record (L : TimeLib) where
  TimeStamp : L.Time
  Name : GoString
  Node : GoString
  Message : GoString

/-- The function `getTime`: the outer `Option` is `none` when a slice panics; inside is
the Go result `(*time.Time, error)`. -/
def getTime (L : TimeLib) (when : GoString) : Option (Except Error L.Time) := do
  -- convert string to internal format
  let d ← sliceTo? when 8
  let h ← slice? when 13 19
  let z ← sliceFrom? when 20
  let s := d ++ [' '] ++ h ++ [' '] ++ z
  match L.Parse s with
  | .error err => pure (.error err)
  | .ok t =>
    -- adjust to the local time zone
    pure (.ok (L.Local t))

/-- The text that `getTime` hands to `time.Parse` for a token long enough for its three
slices: bytes 0-7, a space, bytes 13-18, a space, and the bytes from 20 on. -/
def layoutText (when : GoString) : GoString :=
  when.take 8 ++ [' '] ++ (when.drop 13).take 6 ++ [' '] ++ when.drop 20

/-- The function `NewRecord`.  The outer `Option` is `none` when the Go code panics
(an index out of range); inside is the Go result `(*Record, error)`, so
`(none, none)` is the answer `nil, nil` (not a record). -/
def NewRecord (L : TimeLib) (input : GoString) :
    Option (Option (Record L) × Option Error) := do
  -- break down in major components
  let splits := Split input '|'
  if splits.length < 3 then
    return (none, none)
  -- get time stamp
  let when ← splits[0]?
  if when.length ≠ 23 then
    return (none, none)
  match ← getTime L when with
  | .error err => return (none, some err)
  | .ok stamp =>
    -- get name and id
    let who ← splits[1]?
    let p := Index who '_'
    if p = -1 then
      return (none, none)
    let name ← sliceTo? who p
    let id ← sliceFrom? who (p + 1)
    -- get message
    let p : Int := (when.length : Int) + (who.length : Int) + 2
    let message ← sliceFrom? input p
    return (some ⟨stamp, name, id, message⟩, none)

/-! ## models/database.go: the store -/

/-- A row of table `Messages(ID, TimeStamp, Name, Node, Message)`. -/
structure Row where
  ID : Int
  TimeStamp : GoString
  Name : GoString
  Node : GoString
  Message : GoString
deriving DecidableEq

/-- The largest value of the 64-bit row id. -/
def maxInt64 : Int := 9223372036854775807

/-- The database behind `DB`: the rows of table `Messages` in the order they were
inserted, and the counter the engine keeps for `AUTOINCREMENT` (the largest row id ever
handed out). -/
structure DB where
  rows : List Row
  seq : Int
deriving DecidableEq

/-- The function `initialize` on the fresh in-memory database that `Open` connects to:
both `CREATE ... IF NOT EXISTS` commands run, table `Messages` is empty. -/
def initializeDB : DB :=
  ⟨[], 0⟩

/-- The function `Open`: the store right after it was opened. -/
def Open : DB :=
  initializeDB

/-- The largest row id that is in use or was ever handed out. -/
def DB.lastID (db : DB) : Int :=
  db.rows.foldl (fun m r => max m r.ID) db.seq

/-- The rows selected by
`SELECT ID, Message FROM Messages WHERE TimeStamp=? AND Name=? AND Node=?`,
in scan order; text is compared byte for byte. -/
def DB.Query (db : DB) (stamp name node : GoString) : List (Int × GoString) :=
  (db.rows.filter (fun r => r.TimeStamp = stamp ∧ r.Name = name ∧ r.Node = node)).map
    (fun r => (r.ID, r.Message))

/-- The loop `for rows.Next()` of `Add`: the id of the first selected row whose message
equals the record's. -/
def scanDuplicate : List (Int × GoString) → GoString → Option Int
  | [], _ => none
  | (id, message) :: rows, m =>
    if message = m then some id else scanDuplicate rows m

/-- The command `INSERT INTO Messages(TimeStamp, Name, Node, Message) VALUES(?, ?, ?, ?)`:
the new row gets the id one above the largest ever used; the engine refuses the insert
(`SQLITE_FULL`) when the 64-bit ids are used up.  Returns `LastInsertId` and the new
database. -/
def DB.execInsert (db : DB) (stamp name node message : GoString) : Except Error (Int × DB) :=
  if db.lastID < maxInt64 then
    let id := db.lastID + 1
    .ok (id, ⟨db.rows ++ [⟨id, stamp, name, node, message⟩], id⟩)
  else .error "database or disk is full"

/-- The method `DB.Add`: adds a new record to the database, making sure it is not a
duplicate.  The result is the Go triple `(int64, bool, error)` and the database after
the call.  The query and the scan of its rows do not fail on the in-memory database;
the insert fails when the row ids are used up. -/
def DB.Add (L : TimeLib) (db : DB) (record : Record L) : (Int × Bool × Option Error) × DB :=
  let stamp := L.Format record.TimeStamp
  -- see if it's a duplicate
  match scanDuplicate (db.Query stamp record.Name record.Node) record.Message with
  | some id => ((id, true, none), db)
  | none =>
    -- if we got here, it's because it's a new unique message
    match db.execInsert stamp record.Name record.Node record.Message with
    | .error err => ((-1, false, some err), db)
    | .ok (id, db1) => ((id, false, none), db1)

/-- A sequence of `Add` calls, one per record, as `read` of `main.go` issues them: the
results in call order and the database after the last call. -/
def addAll (L : TimeLib) (db : DB) : List (Record L) → List (Int × Bool × Option Error) × DB
  | [] => ([], db)
  | r :: rs =>
    let res := db.Add L r
    let rest := addAll L res.2 rs
    (res.1 :: rest.1, rest.2)

/-- The tuple a record is stored under: the layout-formatted timestamp text, name, node
and message. -/
def Record.tuple {L : TimeLib} (r : Record L) : GoString × GoString × GoString × GoString :=
  (L.Format r.TimeStamp, r.Name, r.Node, r.Message)

/-- The tuple held by a row. -/
def Row.tuple (r : Row) : GoString × GoString × GoString × GoString :=
  (r.TimeStamp, r.Name, r.Node, r.Message)

/-- The store holds the tuple `t`. -/
def DB.Holds (db : DB) (t : GoString × GoString × GoString × GoString) : Prop :=
  ∃ row ∈ db.rows, row.tuple = t

/-! ## models/database.go: the record reader -/

/-- The order of `ORDER BY TimeStamp ASC` on a `TEXT` column: byte-wise comparison, a
proper beginning of a text sorting before the text. -/
def textLE : GoString → GoString → Bool
  | [], _ => true
  | _ :: _, [] => false
  | a :: as, b :: bs =>
    if a.toNat < b.toNat then true
    else if b.toNat < a.toNat then false
    else textLE as bs

/-- One key of an index order: the byte order of the two texts when they differ, and
what the following keys say when they are equal. -/
def lexLE (ka kb : GoString) (rest : Bool) : Bool :=
  if ka ≠ kb then textLE ka kb else rest

/-- The order of the index `Combo ON Messages(TimeStamp, Name, Node)`: by `TimeStamp`,
then `Name`, then `Node`, each in byte order, and by row id among rows equal in all
three. -/
def comboLE (a b : Row) : Bool :=
  lexLE a.TimeStamp b.TimeStamp
    (lexLE a.Name b.Name (lexLE a.Node b.Node (decide (a.ID ≤ b.ID))))

/-- The rows selected by
`SELECT TimeStamp, Name, Node, Message FROM Messages ORDER BY TimeStamp ASC`, in the
order the engine returns them: it answers the query from the index `Combo`, so rows
with equal `TimeStamp` come by `Name`, then `Node`, then row id. -/
def DB.QueryOrdered (db : DB) : List (GoString × GoString × GoString × GoString) :=
  (db.rows.insertionSort (fun a b => comboLE a b = true)).map Row.tuple

/-- The capacity of the channel made by `NewRecordReader`. -/
def bufferSize : Nat := 10

/-- A `RecordReader` together with the goroutine `read` that feeds it.
* `cursor`: the selected rows that `read` has not scanned yet;
* `buffer`: the records waiting in the channel `rr.buffer`, oldest first;
* `closed`: `close(rr.buffer)` has run, `read` has returned;
* `panicked`: `read` reached `log.Panic`, which ends the process. -/
structure RecordReader (L : TimeLib) where
  cursor : List (GoString × GoString × GoString × GoString)
  buffer : List (Record L)
  closed : Bool
  panicked : Bool

/-- The function `NewRecordReader`: an empty channel, and `read` started on the result
of its query. -/
def NewRecordReader (L : TimeLib) (db : DB) : RecordReader L :=
  ⟨db.QueryOrdered, [], false, false⟩

/-- One step of the goroutine `read`: scan the next row, parse its time stamp and send
the record on the channel, or close the channel after the last row.  `none` when `read`
cannot move: it waits to send on a full channel, it has returned, or the process has
ended. -/
def readStep (L : TimeLib) (rr : RecordReader L) : Option (RecordReader L) :=
  if rr.panicked ∨ rr.closed then none
  else
    match rr.cursor with
    | [] => some { rr with closed := true }
    | (stamp, name, node, message) :: rows =>
      match L.Parse stamp with
      | .error _ => some { rr with panicked := true }
      | .ok dt =>
        -- add to the queue
        if rr.buffer.length < bufferSize then
          some { rr with cursor := rows, buffer := rr.buffer ++ [⟨dt, name, node, message⟩] }
        else none

/-- The method `ReadRecord`: receive from the channel.  The result is the Go pair
`(*Record, bool)` and the reader after the call; `none` when the call cannot return:
it waits on an empty channel that is still open, or the process has ended. -/
def RecordReader.ReadRecord {L : TimeLib} (rr : RecordReader L) :
    Option ((Option (Record L) × Bool) × RecordReader L) :=
  if rr.panicked then none
  else
    match rr.buffer with
    | record :: rest => some ((some record, true), { rr with buffer := rest })
    | [] => if rr.closed then some ((none, false), rr) else none

/-- The loop of `run` that calls `ReadRecord` until it returns `ok = false`, under one
schedule of the two goroutines: `read` runs whenever `ReadRecord` would wait.  The
result is the list of records received, `none` when the process ended in a panic (or
the fuel ran out). -/
def drain (L : TimeLib) : Nat → RecordReader L → Option (List (Record L))
  | 0, _ => none
  | fuel + 1, rr =>
    match rr.ReadRecord with
    | some ((some record, _), rr1) => (drain L fuel rr1).map (record :: ·)
    | some ((none, _), _) => some []
    | none =>
      match readStep L rr with
      | some rr1 => drain L fuel rr1
      | none => none

/-- The loop of `run` under every schedule: `Drains rr out` holds when, from state `rr`,
some interleaving of steps of `read` and calls of `ReadRecord` lets the loop receive
exactly the records `out` and then `ok = false`. -/
inductive Drains (L : TimeLib) : RecordReader L → List (Record L) → Prop
  | done {rr rr1 : RecordReader L} :
      rr.ReadRecord = some ((none, false), rr1) → Drains L rr []
  | recv {rr rr1 : RecordReader L} {record : Record L} {out : List (Record L)} :
      rr.ReadRecord = some ((some record, true), rr1) → Drains L rr1 out →
      Drains L rr (record :: out)
  | step {rr rr1 : RecordReader L} {out : List (Record L)} :
      readStep L rr = some rr1 → Drains L rr1 out → Drains L rr out

/-- The records that `read` sends when it gets through the given rows: each row with
its time stamp text parsed; `none` when the text of some row does not parse (`read`
panics there). -/
def scanAll (L : TimeLib) :
    List (GoString × GoString × GoString × GoString) → Option (List (Record L))
  | [] => some []
  | (stamp, name, node, message) :: rows =>
    match L.Parse stamp with
    | .error _ => none
    | .ok dt => (scanAll L rows).map (⟨dt, name, node, message⟩ :: ·)

/-- The rows that `read` still has to scan: none once it has closed the channel. -/
def RecordReader.remaining {L : TimeLib} (rr : RecordReader L) :
    List (GoString × GoString × GoString × GoString) :=
  if rr.closed then [] else rr.cursor

/-- One move of a replay: a step of the goroutine `read`, or a call of `ReadRecord`
that returns. -/
def Moves (L : TimeLib) (rr rr1 : RecordReader L) : Prop :=
  readStep L rr = some rr1 ∨ ∃ res, rr.ReadRecord = some (res, rr1)

/-- The reader after up to `n` steps of `read` in a row, with no call of `ReadRecord`
in between: the schedule of a consumer that lags. -/
def readSteps (L : TimeLib) : Nat → RecordReader L → RecordReader L
  | 0, rr => rr
  | n + 1, rr =>
    match readStep L rr with
    | some rr1 => readSteps L n rr1
    | none => rr

/-- The number of moves the two goroutines have left before the channel is empty and
closed: a receive for every record that waits and, while `read` runs, a send and a
receive for every row left and the closing of the channel. -/
def movesLeft {L : TimeLib} (rr : RecordReader L) : Nat :=
  rr.buffer.length + (if rr.closed then 0 else 2 * rr.cursor.length + 1)

/-- The loop of `run` under every schedule, to its end: `Ends rr out` holds when, from
state `rr`, whichever goroutine moves next and as long as the loop runs, some goroutine
can move, every call of `ReadRecord` that returns either ends the loop with `ok = false`
after exactly the records `out`, or yields the next record of `out`, and the same holds
again after every move.  Being inductive, it allows no schedule that goes on for
ever. -/
inductive Ends (L : TimeLib) : RecordReader L → List (Record L) → Prop
  | intro {rr : RecordReader L} {out : List (Record L)} :
      (∃ rr1, Moves L rr rr1) →
      (∀ res rr1, rr.ReadRecord = some (res, rr1) →
        (res = (none, false) ∧ out = []) ∨
          ∃ record, res = (some record, true) ∧ out.head? = some record) →
      (∀ record rr1, rr.ReadRecord = some ((some record, true), rr1) → Ends L rr1 out.tail) →
      (∀ rr1, readStep L rr = some rr1 → Ends L rr1 out) →
      Ends L rr out

/-- The replay under every schedule, to the panic: `Panics rr` holds when, from state
`rr`, whichever goroutine moves next, some goroutine can move, no call of `ReadRecord`
answers `ok = false`, and after every move either `read` has reached `log.Panic` or the
same holds again.  Being inductive, it allows no schedule that avoids the panic. -/
inductive Panics (L : TimeLib) : RecordReader L → Prop
  | intro {rr : RecordReader L} :
      (∃ rr1, Moves L rr rr1) →
      (∀ res rr1, rr.ReadRecord = some (res, rr1) → ∃ record, res = (some record, true)) →
      (∀ rr1, Moves L rr rr1 → rr1.panicked = false → Panics L rr1) →
      Panics L rr

/-! ## main.go -/

/-- The call `strings.Trim(s, cutset)` for a cutset of one-byte characters: `s` without
its leading and trailing bytes that are in the cutset. -/
def Trim (s cutset : GoString) : GoString :=
  ((s.dropWhile (fun c => decide (c ∈ cutset))).reverse.dropWhile
    (fun c => decide (c ∈ cutset))).reverse

/-- The other operations of the `time` package that `run` calls on the time stamp of a
record to write it. -/
structure Calendar (L : TimeLib) where
  /-- The call `stamp.Format("20060102")`. -/
  FormatDate : L.Time → GoString
  /-- The call `stamp.Weekday()`, a day from Sunday (0) to Saturday (6). -/
  Weekday : L.Time → Fin 7
  /-- The call `stamp.Format("150405")`. -/
  FormatClock : L.Time → GoString
  /-- The call `stamp.Format("MST")`. -/
  FormatZone : L.Time → GoString

/-- The English names of the days, as the method `String` of a `time.Weekday` returns
them. -/
def WeekdayString (d : Fin 7) : GoString :=
  match d with
  | 0 => "Sunday".toList
  | 1 => "Monday".toList
  | 2 => "Tuesday".toList
  | 3 => "Wednesday".toList
  | 4 => "Thursday".toList
  | 5 => "Friday".toList
  | 6 => "Saturday".toList

/-- What `read` and `run` work on: the store `env.db` and the package variables `raw`
(all unformatted lines) and `duplicates`. -/
structure Env where
  db : DB
  raw : List GoString
  duplicates : Int

/-- The body of the loop of `read` for one line that `ReadLine` returned; `none` when
the program panics (`check` on an error, or an index out of range). -/
def readLine (L : TimeLib) (env : Env) (line : GoString) : Option Env :=
  -- remove superfluous whitespace
  let input := Trim line " \t".toList
  -- ignore blank lines
  if input.length > 0 then
    match NewRecord L input with
    | none => none
    | some (_, some _) => none
    | some (none, none) => some { env with raw := env.raw ++ [input] }
    | some (some record, none) =>
      match env.db.Add L record with
      | ((_, _, some _), _) => none
      | ((_, dup, none), db1) =>
        some { env with db := db1, duplicates := if dup then env.duplicates + 1 else env.duplicates }
  else some env

/-- The function `read` of `main.go` on the lines of one input file. -/
def read (L : TimeLib) (env : Env) : List GoString → Option Env
  | [] => some env
  | line :: lines =>
    match readLine L env line with
    | none => none
    | some env1 => read L env1 lines

/-- The loop of `run` that reads all files, each given by its lines. -/
def readFiles (L : TimeLib) (env : Env) : List (List GoString) → Option Env
  | [] => some env
  | file :: files =>
    match read L env file with
    | none => none
    | some env1 => readFiles L env1 files

/-- The function `write`: the bytes it writes for a line, the line and a blank line. -/
def write (line : GoString) : GoString :=
  line ++ "\n\n".toList

/-- The line `run` writes for a record, `DATE-DAY-TIME-ZONE|NAME_NODE|MESSAGE`; `none`
when the slice of the day name panics. -/
def renderRecord {L : TimeLib} (C : Calendar L) (record : Record L) : Option GoString := do
  let stamp := record.TimeStamp
  let date := C.FormatDate stamp
  let day ← sliceTo? (WeekdayString (C.Weekday stamp)) 3
  let time := C.FormatClock stamp
  let zone := C.FormatZone stamp
  pure (date ++ ['-'] ++ day ++ ['-'] ++ time ++ ['-'] ++ zone ++ ['|'] ++ record.Name ++ ['_']
    ++ record.Node ++ ['|'] ++ record.Message)

/-- The bytes `run` writes for the records it receives, one line each. -/
def writeRecords {L : TimeLib} (C : Calendar L) : List (Record L) → Option GoString
  | [] => some []
  | record :: records =>
    match renderRecord C record with
    | none => none
    | some line => (writeRecords C records).map (write line ++ ·)

/-- The bytes `run` writes for the unformatted lines. -/
def writeRaw : List GoString → GoString
  | [] => []
  | line :: lines => write line ++ writeRaw lines

/-- The function `run` on the input files, each given by the lines that `ReadLine`
returns for it: the bytes written to the consolidated file, `none` when the program
panics.  The loop over `ReadRecord` is run under the schedule of `drain`, with fuel for
every row of the store. -/
def run (L : TimeLib) (C : Calendar L) (files : List (List GoString)) : Option GoString :=
  -- read all files
  match readFiles L ⟨Open, [], 0⟩ files with
  | none => none
  | some env =>
    -- write consolidated file, overwriting the first file
    if files.length = 0 then none
    else
      -- save unformatted records first
      let top := writeRaw env.raw
      -- save database data
      match drain L (2 * env.db.rows.length + 2) (NewRecordReader L env.db) with
      | none => none
      | some records => (writeRecords C records).map (top ++ ·)

/-! ### The consolidated file, as the specification describes it -/

/-- The unformatted line that an input line stands for, in the words of the
specification: the line without its leading and trailing spaces and tabs, when that is
not empty and `NewRecord` classifies it as not a record. -/
def unformattedLine (L : TimeLib) (line : GoString) : Option GoString :=
  if Trim line " \t".toList = [] then none
  else
    match NewRecord L (Trim line " \t".toList) with
    | some (none, none) => some (Trim line " \t".toList)
    | _ => none

/-- The line of a record in the output format of the specification,
`DATE-DAY-TIME-ZONE|NAME_NODE|MESSAGE`, the day being the first three letters of the
name of the weekday. -/
def recordLine {L : TimeLib} (C : Calendar L) (record : Record L) : GoString :=
  C.FormatDate record.TimeStamp ++ "-".toList ++
    (WeekdayString (C.Weekday record.TimeStamp)).take 3 ++ "-".toList ++
    C.FormatClock record.TimeStamp ++ "-".toList ++ C.FormatZone record.TimeStamp ++
    "|".toList ++ record.Name ++ "_".toList ++ record.Node ++ "|".toList ++ record.Message

/-- The consolidated output in the words of the specification: first every unformatted
line, each followed by a blank line, and after all of them the records, each as its
line followed by a blank line. -/
def consolidated {L : TimeLib} (C : Calendar L) (raw : List GoString)
    (records : List (Record L)) : GoString :=
  (raw.map (fun line => line ++ "\n\n".toList)).flatten ++
    (records.map (fun record => recordLine C record ++ "\n\n".toList)).flatten

/-! ## A concrete `time` library

The behaviour of Go's `time.Parse`, `Time.Format`, `Time.Local` and `Time.Unix` for the
layout `"20060102 150405 MST"`, at the precision of one second, for a given local time
zone.  It is used to run the program on concrete input lines. -/

/-- A `time.Time` at the precision of a second: the instant, and the abbreviation and
offset (seconds east of UTC) of the zone the time is shown in. -/
structure Time where
  unix : Int
  zone : GoString
  offset : Int
deriving DecidableEq

/-- A `time.Location`: its table of zones (abbreviation, offset) and the zone in effect
at each instant. -/
structure Location where
  zones : List (GoString × Int)
  lookup : Int → GoString × Int

/-- Days from 1970-01-01 to the given day of the proleptic Gregorian calendar. -/
def daysFromCivil (y : Int) (m d : Nat) : Int :=
  let y1 : Int := if m ≤ 2 then y - 1 else y
  let era : Int := y1 / 400
  let yoe : Int := y1 - era * 400
  let mp : Int := if m > 2 then (m : Int) - 3 else (m : Int) + 9
  let doy : Int := (153 * mp + 2) / 5 + (d : Int) - 1
  let doe : Int := yoe * 365 + yoe / 4 - yoe / 100 + doy
  era * 146097 + doe - 719468

/-- The day of the proleptic Gregorian calendar (year, month, day) that lies the given
number of days after 1970-01-01. -/
def civilFromDays (z : Int) : Int × Nat × Nat :=
  let z1 : Int := z + 719468
  let era : Int := z1 / 146097
  let doe : Int := z1 - era * 146097
  let yoe : Int := (doe - doe / 1460 + doe / 36524 - doe / 146096) / 365
  let doy : Int := doe - (365 * yoe + yoe / 4 - yoe / 100)
  let mp : Int := (5 * doy + 2) / 153
  let d : Int := doy - (153 * mp + 2) / 5 + 1
  let m : Int := if mp < 10 then mp + 3 else mp - 9
  let y : Int := yoe + era * 400 + (if m ≤ 2 then 1 else 0)
  (y, m.toNat, d.toNat)

/-- The decimal digits of a number, most significant first (`0` is one digit). -/
def digits (n : Nat) : GoString :=
  (Nat.toDigits 10 n)

/-- The helper `appendInt` of the `time` package: the decimal text of `x`, zero-padded
to `width` digits, after a minus sign when `x` is negative. -/
def appendInt (x : Int) (width : Nat) : GoString :=
  let ds := digits x.natAbs
  (if x < 0 then ['-'] else []) ++ List.replicate (width - ds.length) '0' ++ ds

/-- The zone text that layout element `MST` prints: the abbreviation, or the offset in
the form `-0700` when the zone has no abbreviation. -/
def formatZone (t : Time) : GoString :=
  if t.zone ≠ [] then t.zone
  else
    let zone : Nat := t.offset.natAbs / 60
    (if t.offset < 0 ∧ 0 < zone then ['-'] else ['+'])
      ++ appendInt (zone / 60) 2 ++ appendInt (zone % 60) 2

/-- The call `t.Format("20060102 150405 MST")`. -/
def goFormat (t : Time) : GoString :=
  let abs : Int := t.unix + t.offset
  let days : Int := abs / 86400
  let secs : Int := abs % 86400
  let ymd := civilFromDays days
  appendInt ymd.1 4 ++ appendInt ymd.2.1 2 ++ appendInt ymd.2.2 2 ++ [' ']
    ++ appendInt (secs / 3600) 2 ++ appendInt (secs % 3600 / 60) 2 ++ appendInt (secs % 60) 2
    ++ [' '] ++ formatZone t

/-- The helper `isDigit`: is byte `i` of `s` a decimal digit. -/
def isDigit (s : GoString) (i : Nat) : Bool :=
  match s[i]? with
  | some c => decide (48 ≤ c.toNat ∧ c.toNat ≤ 57)
  | none => false

/-- The value of the decimal digit at byte `i` of `s`. -/
def digitAt (s : GoString) (i : Nat) : Nat :=
  match s[i]? with
  | some c => c.toNat - 48
  | none => 0

/-- The helper `getnum`: a one- or two-digit number at the start of `s` (exactly two
digits when `fixed`), and the rest of `s`. -/
def getnum (s : GoString) (fixed : Bool) : Option (Nat × GoString) :=
  if !isDigit s 0 then none
  else if !isDigit s 1 then
    if fixed then none else some (digitAt s 0, s.drop 1)
  else some (digitAt s 0 * 10 + digitAt s 1, s.drop 2)

/-- The helper `leadingInt`: the number written by the leading digits of `s` and the
rest of `s`; `none` when the number does not fit 63 bits. -/
def leadingInt : GoString → Nat → Option (Nat × GoString)
  | [], x => some (x, [])
  | c :: cs, x =>
    if c.toNat < 48 ∨ 57 < c.toNat then some (x, c :: cs)
    else if x > 2 ^ 63 / 10 then none
    else
      let x1 := x * 10 + (c.toNat - 48)
      if x1 > 2 ^ 63 then none else leadingInt cs x1

/-- The helper `atoi`: a whole string read as a signed decimal number. -/
def atoi (s : GoString) : Option Int :=
  let neg : Bool := decide (s.head? = some '-')
  let s1 : GoString := if s.head? = some '-' ∨ s.head? = some '+' then s.drop 1 else s
  match leadingInt s1 0 with
  | some (q, []) => some (if neg then -(q : Int) else (q : Int))
  | _ => none

/-- The helper `parseSignedOffset`: the length of a leading `+hh` or `-hh` with
`hh ≤ 23`, or `0`. -/
def parseSignedOffset (value : GoString) : Nat :=
  match value with
  | [] => 0
  | sign :: rest =>
    if sign ≠ '-' ∧ sign ≠ '+' then 0
    else
      match leadingInt rest 0 with
      | none => 0
      | some (x, rem) =>
        if rem.length = rest.length then 0
        else if x > 23 then 0
        else value.length - rem.length

/-- The helper `parseGMT`: the length of `GMT` with an optional signed hour offset. -/
def parseGMT (value : GoString) : Nat :=
  let rest := value.drop 3
  if rest.length = 0 then 3 else 3 + parseSignedOffset rest

/-- The number of leading upper-case letters of `value`, counted up to six. -/
def countUpper : GoString → Nat → Nat
  | _, 0 => 0
  | [], _ => 0
  | c :: cs, n + 1 => if c.toNat < 65 ∨ 90 < c.toNat then 0 else countUpper cs n + 1

/-- The helper `parseTimeZone`: the length of the zone abbreviation at the start of
`value`, or `none` when it does not look like one. -/
def parseTimeZone (value : GoString) : Option Nat :=
  if value.length < 3 then none
  else if value.take 4 = "ChST".toList ∨ value.take 4 = "MeST".toList then some 4
  else if value.take 3 = "GMT".toList then some (parseGMT value)
  else if value.head? = some '+' ∨ value.head? = some '-' then
    (if 0 < parseSignedOffset value then some (parseSignedOffset value) else none)
  else
    match countUpper value 6 with
    | 5 => if value[4]? = some 'T' then some 5 else none
    | 4 => if value[3]? = some 'T' ∨ value.take 4 = "WITA".toList then some 4 else none
    | 3 => some 3
    | _ => none

/-- The helper `skip` for the layout prefix `" "`: a space in the layout stands for any
number of spaces in the value. -/
def skipSpace (value : GoString) : Option GoString :=
  match value with
  | [] => some []
  | c :: cs => if c ≠ ' ' then none else some ((c :: cs).dropWhile (· = ' '))

/-- The helper `daysIn`: the number of days of a month. -/
def daysIn (month : Nat) (year : Int) : Nat :=
  if month = 2 then
    (if year % 4 = 0 ∧ (year % 100 ≠ 0 ∨ year % 400 = 0) then 29 else 28)
  else if month = 4 ∨ month = 6 ∨ month = 9 ∨ month = 11 then 30
  else 31

/-- The method `lookupName` of a location: the offset that the abbreviation `name` has
in the location, preferring a zone that is in effect at the given wall-clock time. -/
def Location.lookupName (l : Location) (name : GoString) (unix : Int) : Option Int :=
  match (l.zones.filter (fun z => z.1 = name ∧ (l.lookup (unix - z.2)).1 = z.1)).head? with
  | some z => some (l.lookup (unix - z.2)).2
  | none => ((l.zones.filter (fun z => z.1 = name)).head?).map (·.2)

/-- The bad-value error of `time.Parse`. -/
def errBad : Error := "bad value for field"

/-- The call `time.Parse("20060102 150405 MST", value)` in a process whose local time
zone is `l`. -/
def goParse (l : Location) (value : GoString) : Except Error Time := do
  -- 2006
  if value.length < 4 ∨ !isDigit value 0 then throw errBad
  let year ← (atoi (value.take 4)).elim (throw errBad) pure
  let value := value.drop 4
  -- 01
  let (month, value) ← (getnum value true).elim (throw errBad) pure
  if month = 0 ∨ 12 < month then throw "month out of range"
  -- 02
  let (day, value) ← (getnum value true).elim (throw errBad) pure
  -- 15
  let value ← (skipSpace value).elim (throw errBad) pure
  let (hour, value) ← (getnum value false).elim (throw errBad) pure
  if 24 ≤ hour then throw "hour out of range"
  -- 04
  let (min, value) ← (getnum value true).elim (throw errBad) pure
  if 60 ≤ min then throw "minute out of range"
  -- 05
  let (sec, value) ← (getnum value true).elim (throw errBad) pure
  if 60 ≤ sec then throw "second out of range"
  -- a fractional second in the value that the layout does not have
  let value :=
    if (value.head? = some '.' ∨ value.head? = some ',') ∧ isDigit value 1 then
      (value.drop 2).dropWhile (fun c => decide (48 ≤ c.toNat ∧ c.toNat ≤ 57))
    else value
  -- MST
  let value ← (skipSpace value).elim (throw errBad) pure
  let wall : Int := daysFromCivil year month day * 86400 + hour * 3600 + min * 60 + sec
  if value.take 3 = "UTC".toList then
    if (value.drop 3).length ≠ 0 then throw "extra text"
    if day < 1 ∨ daysIn month year < day then throw "day out of range"
    return ⟨wall, "UTC".toList, 0⟩
  let n ← (parseTimeZone value).elim (throw errBad) pure
  let zoneName := value.take n
  if (value.drop n).length ≠ 0 then throw "extra text"
  if day < 1 ∨ daysIn month year < day then throw "day out of range"
  if zoneName = [] then return ⟨wall, "UTC".toList, 0⟩
  match l.lookupName zoneName wall with
  | some offset => return ⟨wall - offset, (l.lookup (wall - offset)).1, (l.lookup (wall - offset)).2⟩
  | none =>
    -- a fabricated zone of unknown offset
    let offset : Int :=
      if 3 < zoneName.length ∧ zoneName.take 3 = "GMT".toList then
        ((atoi (zoneName.drop 3)).getD 0) * 3600
      else 0
    return ⟨wall, zoneName, offset⟩

/-- The call `t.Local()` in a process whose local time zone is `l`. -/
def goLocal (l : Location) (t : Time) : Time :=
  ⟨t.unix, (l.lookup t.unix).1, (l.lookup t.unix).2⟩

/-- The `time` package in a process whose local time zone is `l`. -/
def goTime (l : Location) : TimeLib where
  Time := Time
  Parse := goParse l
  Format := goFormat
  Local := goLocal l
  Unix := fun t => t.unix

/-- The local time zone of a machine that runs on UTC. -/
def utcLocation : Location where
  zones := [("UTC".toList, 0)]
  lookup := fun _ => ("UTC".toList, 0)

/-- A local time zone with daylight saving: Central European Time, with summer time
(CEST, two hours east of UTC) from 2023-03-26 01:00 UTC to 2023-10-29 01:00 UTC. -/
def cetLocation : Location where
  zones := [("CET".toList, 3600), ("CEST".toList, 7200)]
  lookup := fun unix =>
    if 1679792400 ≤ unix ∧ unix < 1698541200 then ("CEST".toList, 7200)
    else ("CET".toList, 3600)

/-- The other operations of the `time` package on the concrete times. -/
def goCalendar (l : Location) : Calendar (goTime l) where
  FormatDate := fun (t : Time) =>
    let ymd := civilFromDays ((t.unix + t.offset) / 86400)
    appendInt ymd.1 4 ++ appendInt ymd.2.1 2 ++ appendInt ymd.2.2 2
  Weekday := fun (t : Time) =>
    ⟨(((t.unix + t.offset) / 86400 + 4) % 7).toNat % 7, Nat.mod_lt _ (by decide)⟩
  FormatClock := fun (t : Time) =>
    let secs : Int := (t.unix + t.offset) % 86400
    appendInt (secs / 3600) 2 ++ appendInt (secs % 3600 / 60) 2 ++ appendInt (secs % 60) 2
  FormatZone := fun (t : Time) => formatZone t

/-! ## Concrete inputs -/

/-- The `time` package on a machine that runs on UTC. -/
def utcLib : TimeLib := goTime utcLocation

/-- The `time` package on a machine whose local zone is Central European Time. -/
def cetLib : TimeLib := goTime cetLocation

/-- The input line of the scenario of the specification. -/
def helloLine : GoString := "20230615-Thu-143022-UTC|svcA_n1|hello".toList

/-- The record `NewRecord` makes of `helloLine` on a machine that runs on UTC. -/
def helloRecord : Record utcLib :=
  ⟨⟨1686839422, "UTC".toList, 0⟩, "svcA".toList, "n1".toList, "hello".toList⟩

/-- A record with the time stamp, name and node of `helloRecord` and another message. -/
def worldRecord : Record utcLib :=
  ⟨⟨1686839422, "UTC".toList, 0⟩, "svcA".toList, "n1".toList, "world".toList⟩

/-- A record of another publisher, one hour before `helloRecord`. -/
def earlyRecord : Record utcLib :=
  ⟨⟨1686835822, "UTC".toList, 0⟩, "svcB".toList, "n2".toList, "hello".toList⟩

/-- A line stamped 00:30 UTC on the night the clocks of Central Europe go back. -/
def firstLine : GoString := "20231029-Sun-003000-UTC|a_b|first".toList

/-- A line stamped 01:10 UTC of the same night, forty minutes after `firstLine`. -/
def secondLine : GoString := "20231029-Sun-011000-UTC|a_b|second".toList

/-- The record of `firstLine` in Central Europe: 02:30 summer time. -/
def firstRecord : Record cetLib :=
  ⟨⟨1698539400, "CEST".toList, 7200⟩, "a".toList, "b".toList, "first".toList⟩

/-- The record of `secondLine` in Central Europe: 02:10 standard time. -/
def secondRecord : Record cetLib :=
  ⟨⟨1698541800, "CET".toList, 3600⟩, "a".toList, "b".toList, "second".toList⟩

/-- A line stamped one second before the year 10000, UTC. -/
def lastLine : GoString := "99991231-Fri-235959-UTC|a_b|x".toList

/-- The record of `lastLine` in Central Europe: 00:59:59 on the first day of the year
10000. -/
def lastRecord : Record cetLib :=
  ⟨⟨253402300799, "CET".toList, 3600⟩, "a".toList, "b".toList, "x".toList⟩

/-- A record whose time is 14:30:22 on 2023-06-15 in a fixed zone named CET, one hour
east of UTC, as a caller of `Add` other than `main.go` may pass it. -/
def fixedZoneRecord : Record cetLib :=
  ⟨⟨1686835822, "CET".toList, 3600⟩, "a".toList, "b".toList, "x".toList⟩

/-- A line of three fields whose time stamp token names a month 13 and whose second
field has no underscore. -/
def badMonthLine : GoString := "20231329-Thu-143022-UTC|svcA|hello".toList

/-- A line of three fields with a good time stamp token and no underscore in the second
field. -/
def noUnderscoreLine : GoString := "20230615-Thu-143022-UTC|svcA|hello".toList

/-- A line that is not a record, read with a space before it and a tab after it. -/
def paddedLine : GoString := " not a valid line\t".toList

/-- The line of the scenario with a wrong weekday and other bytes for the hyphens. -/
def mondayLine : GoString := "20230615xMon+143022/UTC|svcA_n1|hello".toList

/-- A line whose second field holds two underscores. -/
def twoUnderscoresLine : GoString := "20230615-Thu-143022-UTC|svc_A_n1|hello".toList

/-- A line whose second field is a lone underscore, and whose message is empty. -/
def loneUnderscoreLine : GoString := "20230615-Thu-143022-UTC|_|".toList

/-- Two input files: the scenario's line, an unformatted line with spaces around it, a
blank line and the scenario's line again; and an unformatted line and an earlier
record. -/
def twoFiles : List (List GoString) :=
  [[helloLine, paddedLine, "  \t".toList, helloLine],
    ["x|y".toList, "20230615-Thu-133022-UTC|svcB_n2|hello|x".toList]]

/-- Twelve records that differ in the message only. -/
def twelveRecords : List (Record utcLib) :=
  (List.range 12).map
    (fun i => ⟨⟨1686839422, "UTC".toList, 0⟩, "svcA".toList, "n1".toList, digits i⟩)

/-! ## The store: `Add` -/

theorem scanDuplicate_none_iff (l : List (Int × GoString)) (m : GoString) :
    scanDuplicate l m = none ↔ ∀ p ∈ l, p.2 ≠ m := by
  induction l with
  | nil => simp [scanDuplicate]
  | cons p l ih =>
    obtain ⟨id, message⟩ := p
    by_cases h : message = m
    · simp [scanDuplicate, h]
    · simp [scanDuplicate, h, ih]

theorem scanDuplicate_some_mem {l : List (Int × GoString)} {m : GoString} {id : Int}
    (h : scanDuplicate l m = some id) : (id, m) ∈ l := by
  induction l with
  | nil => simp [scanDuplicate] at h
  | cons p l ih =>
    obtain ⟨id1, message⟩ := p
    by_cases hm : message = m
    · simp [scanDuplicate, hm] at h
      simp [h, hm]
    · simp [scanDuplicate, hm] at h
      exact List.mem_cons_of_mem _ (ih h)

theorem mem_Query (db : DB) (stamp name node : GoString) (id : Int) (message : GoString) :
    (id, message) ∈ db.Query stamp name node ↔
      ∃ row ∈ db.rows, row.TimeStamp = stamp ∧ row.Name = name ∧ row.Node = node ∧
        row.ID = id ∧ row.Message = message := by
  simp only [DB.Query, List.mem_map, List.mem_filter, decide_eq_true_eq, Prod.mk.injEq]
  constructor
  · rintro ⟨row, ⟨hmem, h1, h2, h3⟩, h4, h5⟩
    exact ⟨row, hmem, h1, h2, h3, h4, h5⟩
  · rintro ⟨row, hmem, h1, h2, h3, h4, h5⟩
    exact ⟨row, ⟨hmem, h1, h2, h3⟩, h4, h5⟩

theorem scanDuplicate_Query_none_iff {L : TimeLib} (db : DB) (r : Record L) :
    scanDuplicate (db.Query (L.Format r.TimeStamp) r.Name r.Node) r.Message = none ↔
      ¬ db.Holds r.tuple := by
  rw [scanDuplicate_none_iff]
  constructor
  · rintro h ⟨row, hmem, ht⟩
    simp only [Row.tuple, Record.tuple, Prod.mk.injEq] at ht
    exact h (row.ID, row.Message)
      ((mem_Query _ _ _ _ _ _).2 ⟨row, hmem, ht.1, ht.2.1, ht.2.2.1, rfl, rfl⟩) ht.2.2.2
  · rintro h ⟨id, message⟩ hp hm
    obtain ⟨row, hmem, h1, h2, h3, _, h5⟩ := (mem_Query _ _ _ _ _ _).1 hp
    apply h
    refine ⟨row, hmem, ?_⟩
    simp only [Row.tuple, Record.tuple, Prod.mk.injEq]
    exact ⟨h1, h2, h3, h5.trans hm⟩

/-- The three ways a call of `Add` can go: a duplicate is found, the record is inserted,
or the insert is refused. -/
theorem Add_cases (L : TimeLib) (db : DB) (r : Record L) :
    (∃ id, db.Add L r = ((id, true, none), db) ∧
        ∃ row ∈ db.rows, row.ID = id ∧ row.tuple = r.tuple) ∨
    (¬ db.Holds r.tuple ∧ db.lastID < maxInt64 ∧
        db.Add L r = ((db.lastID + 1, false, none),
          ⟨db.rows ++ [⟨db.lastID + 1, L.Format r.TimeStamp, r.Name, r.Node, r.Message⟩],
            db.lastID + 1⟩)) ∨
    (¬ db.Holds r.tuple ∧ ¬ db.lastID < maxInt64 ∧
        ∃ err, db.Add L r = ((-1, false, some err), db)) := by
  cases hs : scanDuplicate (db.Query (L.Format r.TimeStamp) r.Name r.Node) r.Message with
  | some id =>
    left
    refine ⟨id, by simp [DB.Add, hs], ?_⟩
    obtain ⟨row, hmem, h1, h2, h3, h4, h5⟩ := (mem_Query _ _ _ _ _ _).1 (scanDuplicate_some_mem hs)
    exact ⟨row, hmem, h4, by simp [Row.tuple, Record.tuple, h1, h2, h3, h5]⟩
  | none =>
    right
    have hn := (scanDuplicate_Query_none_iff db r).1 hs
    by_cases hf : db.lastID < maxInt64
    · left
      exact ⟨hn, hf, by simp [DB.Add, hs, DB.execInsert, hf]⟩
    · right
      exact ⟨hn, hf, "database or disk is full", by simp [DB.Add, hs, DB.execInsert, hf]⟩

/-- C1: for every store and every record, `Add` reports a duplicate exactly when the
store already holds a row whose time stamp text (the record's time formatted with the
layout), name, node and message all equal the record's; in particular, when no row has
all four equal (rows with the same time stamp, name and node but another message may
exist), `Add` reports no duplicate and a call that succeeds appends the record as a new
row. -/
theorem C1_add_reports_duplicate_iff_tuple_stored (L : TimeLib) (db : DB) (r : Record L) :
    ((db.Add L r).1.2.1 = true ↔
      ∃ row ∈ db.rows, row.TimeStamp = L.Format r.TimeStamp ∧ row.Name = r.Name ∧
        row.Node = r.Node ∧ row.Message = r.Message) ∧
    ((∀ row ∈ db.rows, row.TimeStamp = L.Format r.TimeStamp → row.Name = r.Name →
        row.Node = r.Node → row.Message ≠ r.Message) →
      (db.Add L r).1.2.1 = false ∧
      ((db.Add L r).1.2.2 = none →
        ∃ id, (db.Add L r).2.rows =
          db.rows ++ [⟨id, L.Format r.TimeStamp, r.Name, r.Node, r.Message⟩])) := by
  have hholds : db.Holds r.tuple ↔
      ∃ row ∈ db.rows, row.TimeStamp = L.Format r.TimeStamp ∧ row.Name = r.Name ∧
        row.Node = r.Node ∧ row.Message = r.Message := by
    simp [DB.Holds, Row.tuple, Record.tuple]
  rcases Add_cases L db r with ⟨id, h, row, hmem, _, ht⟩ | ⟨hn, _, h⟩ | ⟨hn, _, err, h⟩
  · have hh : db.Holds r.tuple := ⟨row, hmem, ht⟩
    refine ⟨by simp only [h, true_iff]; exact hholds.1 hh, ?_⟩
    intro hall
    obtain ⟨row1, hmem1, h1, h2, h3, h4⟩ := hholds.1 hh
    exact absurd h4 (hall row1 hmem1 h1 h2 h3)
  · refine ⟨?_, fun _ => ⟨by simp [h], fun _ => ⟨db.lastID + 1, by simp [h]⟩⟩⟩
    rw [← hholds]
    simp [h, hn]
  · refine ⟨?_, fun _ => ⟨by simp [h], fun he => by simp [h] at he⟩⟩
    rw [← hholds]
    simp [h, hn]

/-! ### Row ids -/

theorem foldl_max_le_iff (rows : List Row) (s b : Int) :
    rows.foldl (fun m r => max m r.ID) s ≤ b ↔ s ≤ b ∧ ∀ row ∈ rows, row.ID ≤ b := by
  induction rows generalizing s with
  | nil => simp
  | cons r rows ih =>
    simp only [List.foldl_cons, ih, max_le_iff, List.mem_cons, forall_eq_or_imp]
    tauto

theorem lastID_le_iff (db : DB) (b : Int) :
    db.lastID ≤ b ↔ db.seq ≤ b ∧ ∀ row ∈ db.rows, row.ID ≤ b :=
  foldl_max_le_iff db.rows db.seq b

theorem ID_le_lastID (db : DB) {row : Row} (h : row ∈ db.rows) : row.ID ≤ db.lastID :=
  ((lastID_le_iff db db.lastID).1 le_rfl).2 row h

theorem seq_le_lastID (db : DB) : db.seq ≤ db.lastID :=
  ((lastID_le_iff db db.lastID).1 le_rfl).1

theorem lastID_insert (db : DB) (stamp name node message : GoString) :
    DB.lastID ⟨db.rows ++ [⟨db.lastID + 1, stamp, name, node, message⟩], db.lastID + 1⟩ =
      db.lastID + 1 := by
  apply le_antisymm
  · rw [lastID_le_iff]
    refine ⟨le_rfl, ?_⟩
    intro row hrow
    simp only [List.mem_append, List.mem_singleton] at hrow
    rcases hrow with hrow | hrow
    · have := ID_le_lastID db hrow
      omega
    · simp [hrow]
  · exact seq_le_lastID ⟨_, db.lastID + 1⟩

theorem lastID_Add_le (L : TimeLib) (db : DB) (r : Record L) :
    (db.Add L r).2.lastID ≤ db.lastID + 1 := by
  rcases Add_cases L db r with ⟨id, h, _⟩ | ⟨_, _, h⟩ | ⟨_, _, err, h⟩
  · rw [h]; simp
  · rw [h]; simp only; rw [lastID_insert]
  · rw [h]; simp

theorem lastID_le_Add (L : TimeLib) (db : DB) (r : Record L) :
    db.lastID ≤ (db.Add L r).2.lastID := by
  rcases Add_cases L db r with ⟨id, h, _⟩ | ⟨_, _, h⟩ | ⟨_, _, err, h⟩
  · rw [h]
  · rw [h]; simp only; rw [lastID_insert]; omega
  · rw [h]

/-! ### What a call of `Add` does to the rows -/

theorem Holds_append_single (db : DB) (row : Row) (s : Int)
    (t : GoString × GoString × GoString × GoString) :
    DB.Holds ⟨db.rows ++ [row], s⟩ t ↔ db.Holds t ∨ row.tuple = t := by
  simp only [DB.Holds, List.mem_append, List.mem_singleton]
  constructor
  · rintro ⟨x, hx | hx, ht⟩
    · exact Or.inl ⟨x, hx, ht⟩
    · exact Or.inr (hx ▸ ht)
  · rintro (⟨x, hx, ht⟩ | ht)
    · exact ⟨x, Or.inl hx, ht⟩
    · exact ⟨row, Or.inr rfl, ht⟩

theorem Holds_iff_mem (db : DB) (t : GoString × GoString × GoString × GoString) :
    db.Holds t ↔ t ∈ db.rows.map Row.tuple := by
  simp [DB.Holds]

/-- After a call of `Add` that returned no error the store holds the tuples it held
before and the tuple of the record, and nothing else. -/
theorem Holds_Add (L : TimeLib) (db : DB) (r : Record L)
    (t : GoString × GoString × GoString × GoString) (hok : (db.Add L r).1.2.2 = none) :
    (db.Add L r).2.Holds t ↔ db.Holds t ∨ r.tuple = t := by
  rcases Add_cases L db r with ⟨id, h, row, hmem, _, ht⟩ | ⟨_, _, h⟩ | ⟨_, _, err, h⟩
  · rw [h]
    constructor
    · exact Or.inl
    · rintro (h1 | h1)
      · exact h1
      · exact ⟨row, hmem, ht.trans h1⟩
  · rw [h]; simp only
    rw [Holds_append_single]
    simp [Row.tuple, Record.tuple]
  · rw [h] at hok; simp at hok

theorem Holds_Add_of_Holds (L : TimeLib) (db : DB) (r : Record L)
    (t : GoString × GoString × GoString × GoString) (ht : db.Holds t) :
    (db.Add L r).2.Holds t := by
  rcases Add_cases L db r with ⟨id, h, _⟩ | ⟨_, _, h⟩ | ⟨_, _, err, h⟩
  · rw [h]; exact ht
  · rw [h]; simp only
    rw [Holds_append_single]
    exact Or.inl ht
  · rw [h]; exact ht

theorem nodup_Add (L : TimeLib) (db : DB) (r : Record L)
    (hnd : (db.rows.map Row.tuple).Nodup) : ((db.Add L r).2.rows.map Row.tuple).Nodup := by
  rcases Add_cases L db r with ⟨id, h, _⟩ | ⟨hn, _, h⟩ | ⟨_, _, err, h⟩
  · rw [h]; exact hnd
  · rw [h]; simp only
    rw [List.map_append, List.nodup_append]
    refine ⟨hnd, by simp, ?_⟩
    intro a ha hb
    simp only [List.map_cons, List.map_nil, List.mem_singleton] at hb
    apply hn
    rw [Holds_iff_mem]
    have : a = r.tuple := by rw [hb]; rfl
    exact this ▸ ha
  · rw [h]; exact hnd

/-! ### Sequences of calls -/

theorem addAll_nil (L : TimeLib) (db : DB) : addAll L db [] = ([], db) := rfl

theorem addAll_cons (L : TimeLib) (db : DB) (r : Record L) (rs : List (Record L)) :
    addAll L db (r :: rs) =
      ((db.Add L r).1 :: (addAll L (db.Add L r).2 rs).1, (addAll L (db.Add L r).2 rs).2) := rfl

theorem addAll_length (L : TimeLib) (db : DB) (rs : List (Record L)) :
    (addAll L db rs).1.length = rs.length := by
  induction rs generalizing db with
  | nil => rfl
  | cons r rs ih => simp [addAll_cons, ih]

theorem addAll_append (L : TimeLib) (db : DB) (xs ys : List (Record L)) :
    addAll L db (xs ++ ys) =
      ((addAll L db xs).1 ++ (addAll L (addAll L db xs).2 ys).1,
        (addAll L (addAll L db xs).2 ys).2) := by
  induction xs generalizing db with
  | nil => rfl
  | cons x xs ih => simp [addAll_cons, ih]

/-- No call fails while ids are left: a run of `n` calls uses up at most `n` ids. -/
theorem addAll_no_error (L : TimeLib) (db : DB) (rs : List (Record L))
    (h : db.lastID + rs.length ≤ maxInt64) :
    ∀ res ∈ (addAll L db rs).1, res.2.2 = none := by
  induction rs generalizing db with
  | nil => simp [addAll_nil]
  | cons r rs ih =>
    simp only [List.length_cons, Nat.cast_add, Nat.cast_one] at h
    have hlen : (0 : Int) ≤ rs.length := Int.ofNat_nonneg _
    intro res hres
    simp only [addAll_cons, List.mem_cons] at hres
    rcases hres with hres | hres
    · rcases Add_cases L db r with ⟨id, h1, _⟩ | ⟨_, _, h1⟩ | ⟨_, hf, err, h1⟩
      · rw [hres, h1]
      · rw [hres, h1]
      · exact absurd (by omega) hf
    · have := lastID_Add_le L db r
      exact ih (db.Add L r).2 (by omega) res hres

theorem lastID_Open : Open.lastID = 0 := rfl

theorem addAll_Open_no_error (L : TimeLib) (rs : List (Record L)) (h : rs.length < 2 ^ 63) :
    ∀ res ∈ (addAll L Open rs).1, res.2.2 = none := by
  apply addAll_no_error
  rw [lastID_Open]
  have : (rs.length : Int) < 2 ^ 63 := by exact_mod_cast h
  simp only [maxInt64]
  omega

/-- A run that returned no error leaves the store holding what it held and the tuples
of the records, and nothing else. -/
theorem Holds_addAll (L : TimeLib) (db : DB) (rs : List (Record L))
    (t : GoString × GoString × GoString × GoString)
    (hok : ∀ res ∈ (addAll L db rs).1, res.2.2 = none) :
    (addAll L db rs).2.Holds t ↔ db.Holds t ∨ ∃ r ∈ rs, r.tuple = t := by
  induction rs generalizing db with
  | nil => simp [addAll_nil]
  | cons r rs ih =>
    simp only [addAll_cons, List.mem_cons, forall_eq_or_imp] at hok
    simp only [addAll_cons, List.mem_cons, exists_eq_or_imp]
    rw [ih _ hok.2, Holds_Add L db r t hok.1, or_assoc]

theorem nodup_addAll (L : TimeLib) (db : DB) (rs : List (Record L))
    (hnd : (db.rows.map Row.tuple).Nodup) :
    ((addAll L db rs).2.rows.map Row.tuple).Nodup := by
  induction rs generalizing db with
  | nil => exact hnd
  | cons r rs ih => exact ih _ (nodup_Add L db r hnd)

theorem not_Holds_Open (t : GoString × GoString × GoString × GoString) : ¬ Open.Holds t := by
  rintro ⟨row, hrow, _⟩
  simp [Open, initializeDB] at hrow

/-- C2: starting from the empty store, after a sequence of `Add` calls none of which
returned an error, the store holds exactly the tuples that were added (every tuple
passed to `Add` is held by a row, every row holds a tuple that was passed), and no two
rows hold the same tuple. -/
theorem C2_store_holds_exactly_the_distinct_tuples (L : TimeLib) (rs : List (Record L))
    (hok : ∀ res ∈ (addAll L Open rs).1, res.2.2 = none) :
    (∀ r ∈ rs, ∃ row ∈ (addAll L Open rs).2.rows, row.tuple = r.tuple) ∧
    (∀ row ∈ (addAll L Open rs).2.rows, ∃ r ∈ rs, r.tuple = row.tuple) ∧
    ((addAll L Open rs).2.rows.map Row.tuple).Nodup := by
  have hH := fun t => Holds_addAll L Open rs t hok
  refine ⟨?_, ?_, nodup_addAll L Open rs (by simp [Open, initializeDB])⟩
  · intro r hr
    exact (hH r.tuple).2 (Or.inr ⟨r, hr, rfl⟩)
  · intro row hrow
    rcases (hH row.tuple).1 ⟨row, hrow, rfl⟩ with h | h
    · exact absurd h (not_Holds_Open _)
    · exact h

/-! ### Counting rows and duplicate reports -/

theorem count_pos_iff (db : DB) (t : GoString × GoString × GoString × GoString) :
    0 < db.rows.countP (fun row => decide (row.tuple = t)) ↔ db.Holds t := by
  simp [List.countP_pos_iff, DB.Holds]

theorem count_eq_zero_iff (db : DB) (t : GoString × GoString × GoString × GoString) :
    db.rows.countP (fun row => decide (row.tuple = t)) = 0 ↔ ¬ db.Holds t := by
  rw [← count_pos_iff]
  omega

/-- A call of `Add` for another tuple leaves the number of rows holding `t` as it is. -/
theorem count_Add_of_ne (L : TimeLib) (db : DB) (r : Record L)
    (t : GoString × GoString × GoString × GoString) (hne : r.tuple ≠ t) :
    (db.Add L r).2.rows.countP (fun row => decide (row.tuple = t)) =
      db.rows.countP (fun row => decide (row.tuple = t)) := by
  rcases Add_cases L db r with ⟨id, h, _⟩ | ⟨_, _, h⟩ | ⟨_, _, err, h⟩
  · rw [h]
  · rw [h]; simp only
    rw [List.countP_append]
    have : (Row.tuple ⟨db.lastID + 1, L.Format r.TimeStamp, r.Name, r.Node, r.Message⟩) ≠ t :=
      hne
    simp [List.countP_cons, this]
  · rw [h]

/-- The first successful call of `Add` for a tuple the store does not hold leaves
exactly one row holding it. -/
theorem count_Add_of_not_Holds (L : TimeLib) (db : DB) (r : Record L)
    (hn : ¬ db.Holds r.tuple) (hok : (db.Add L r).1.2.2 = none) :
    (db.Add L r).1.2.1 = false ∧
      (db.Add L r).2.rows.countP (fun row => decide (row.tuple = r.tuple)) = 1 := by
  rcases Add_cases L db r with ⟨id, h, row, hmem, _, ht⟩ | ⟨_, _, h⟩ | ⟨_, _, err, h⟩
  · exact absurd ⟨row, hmem, ht⟩ hn
  · rw [h]; simp only
    rw [List.countP_append, (count_eq_zero_iff db r.tuple).2 hn]
    have : (Row.tuple ⟨db.lastID + 1, L.Format r.TimeStamp, r.Name, r.Node, r.Message⟩) =
        r.tuple := rfl
    simp [List.countP_cons, this]
  · rw [h] at hok; simp at hok

theorem Add_of_Holds (L : TimeLib) (db : DB) (r : Record L) (hh : db.Holds r.tuple) :
    (db.Add L r).1.2.1 = true ∧ (db.Add L r).2 = db := by
  rcases Add_cases L db r with ⟨id, h, _⟩ | ⟨hn, _, _⟩ | ⟨hn, _, _⟩
  · rw [h]; simp
  · exact absurd hh hn
  · exact absurd hh hn

/-- In a run on a store that holds `t` already, every call for `t` reports a duplicate
and the number of rows holding `t` stays. -/
theorem addAll_count_of_Holds (L : TimeLib) (db : DB) (rs : List (Record L))
    (t : GoString × GoString × GoString × GoString) (hh : db.Holds t) :
    (addAll L db rs).2.rows.countP (fun row => decide (row.tuple = t)) =
        db.rows.countP (fun row => decide (row.tuple = t)) ∧
    (rs.zip (addAll L db rs).1).countP (fun p => decide (p.1.tuple = t) && p.2.2.1) =
        rs.countP (fun r => decide (r.tuple = t)) := by
  induction rs generalizing db with
  | nil => simp [addAll_nil]
  | cons r rs ih =>
    simp only [addAll_cons, List.zip_cons_cons, List.countP_cons]
    by_cases hr : r.tuple = t
    · have hA := Add_of_Holds L db r (hr ▸ hh)
      rw [hA.2]
      have := ih db hh
      simp [hr, hA.1, this.1, this.2]
    · have hc := count_Add_of_ne L db r t hr
      have := ih (db.Add L r).2 (Holds_Add_of_Holds L db r t hh)
      simp [hr, this.1, this.2, hc]

/-- In a run without errors on a store that does not hold `t`: the calls for `t` leave
one row holding it and all of them but one report a duplicate. -/
theorem addAll_count_of_not_Holds (L : TimeLib) (db : DB) (rs : List (Record L))
    (t : GoString × GoString × GoString × GoString) (hn : ¬ db.Holds t)
    (hok : ∀ res ∈ (addAll L db rs).1, res.2.2 = none)
    (hpos : 0 < rs.countP (fun r => decide (r.tuple = t))) :
    (addAll L db rs).2.rows.countP (fun row => decide (row.tuple = t)) = 1 ∧
    (rs.zip (addAll L db rs).1).countP (fun p => decide (p.1.tuple = t) && p.2.2.1) =
        rs.countP (fun r => decide (r.tuple = t)) - 1 := by
  induction rs generalizing db with
  | nil => simp at hpos
  | cons r rs ih =>
    simp only [addAll_cons, List.mem_cons, forall_eq_or_imp] at hok
    simp only [addAll_cons, List.zip_cons_cons, List.countP_cons]
    by_cases hr : r.tuple = t
    · subst hr
      have hA := count_Add_of_not_Holds L db r hn hok.1
      have hh : (db.Add L r).2.Holds r.tuple := (count_pos_iff _ _).1 (by omega)
      have := addAll_count_of_Holds L (db.Add L r).2 rs r.tuple hh
      simp [hA.1, this.1, this.2, hA.2]
    · have hn1 : ¬ (db.Add L r).2.Holds t := by
        rw [Holds_Add L db r t hok.1]
        tauto
      have hpos1 : 0 < rs.countP (fun r => decide (r.tuple = t)) := by
        simpa [List.countP_cons, hr] using hpos
      have := ih (db.Add L r).2 hn1 hok.2 hpos1
      simp [hr, this.1, this.2]

theorem addAll_getElem?_append (L : TimeLib) (db : DB) (pre post : List (Record L))
    (r : Record L) :
    (addAll L db (pre ++ r :: post)).1[pre.length]? =
      some ((addAll L db pre).2.Add L r).1 := by
  rw [addAll_append, addAll_cons]
  simp only
  rw [List.getElem?_append_right (by rw [addAll_length])]
  simp [addAll_length]

theorem addAll_no_error_prefix (L : TimeLib) (db : DB) (pre post : List (Record L))
    (hok : ∀ res ∈ (addAll L db (pre ++ post)).1, res.2.2 = none) :
    (∀ res ∈ (addAll L db pre).1, res.2.2 = none) ∧
      ∀ res ∈ (addAll L (addAll L db pre).2 post).1, res.2.2 = none := by
  rw [addAll_append] at hok
  simp only [List.mem_append] at hok
  exact ⟨fun res h => hok res (Or.inl h), fun res h => hok res (Or.inr h)⟩

/-- C3: for every N ≥ 1 and every sequence of fewer than 2^63 `Add` calls on the empty
store in which the tuple `t` is added exactly N times, among calls for other tuples in
any order: the store ends with exactly one row holding `t`, exactly N - 1 of the calls
for `t` report a duplicate, and the first call for `t` reports none. -/
theorem C3_same_tuple_n_times_one_row (L : TimeLib) (rs : List (Record L))
    (t : GoString × GoString × GoString × GoString) (N : Nat) (hN : 1 ≤ N)
    (hlen : rs.length < 2 ^ 63)
    (hcalls : rs.countP (fun r => decide (r.tuple = t)) = N) :
    (addAll L Open rs).2.rows.countP (fun row => decide (row.tuple = t)) = 1 ∧
    (rs.zip (addAll L Open rs).1).countP (fun p => decide (p.1.tuple = t) && p.2.2.1) =
        N - 1 ∧
    (∀ pre r post, rs = pre ++ r :: post → r.tuple = t → (∀ x ∈ pre, x.tuple ≠ t) →
        ∃ id, (addAll L Open rs).1[pre.length]? = some (id, false, none)) := by
  have hok := addAll_Open_no_error L rs hlen
  have h := addAll_count_of_not_Holds L Open rs t (not_Holds_Open t) hok (by omega)
  refine ⟨h.1, by rw [h.2, hcalls], ?_⟩
  intro pre r post hrs hr hpre
  subst hrs
  rw [addAll_getElem?_append]
  have hokp := addAll_no_error_prefix L Open pre (r :: post) hok
  have hn : ¬ (addAll L Open pre).2.Holds r.tuple := by
    rw [Holds_addAll L Open pre r.tuple hokp.1]
    rintro (h1 | ⟨x, hx, hxt⟩)
    · exact not_Holds_Open _ h1
    · exact hpre x hx (hxt.trans hr)
  rcases Add_cases L (addAll L Open pre).2 r with ⟨id, _, row, hmem, _, ht⟩ | ⟨_, _, h1⟩ |
    ⟨_, _, err, h1⟩
  · exact absurd ⟨row, hmem, ht⟩ hn
  · exact ⟨_, by rw [h1]⟩
  · have := hokp.2 ((addAll L Open pre).2.Add L r).1 (by simp [addAll_cons])
    rw [h1] at this
    simp at this

/-- In a run without errors of records with pairwise different tuples, none of which
the store holds, every call inserts: no duplicate is reported and the store grows by
one row per call. -/
theorem addAll_all_new (L : TimeLib) (db : DB) (rs : List (Record L))
    (hn : ∀ r ∈ rs, ¬ db.Holds r.tuple) (hnd : (rs.map Record.tuple).Nodup)
    (hok : ∀ res ∈ (addAll L db rs).1, res.2.2 = none) :
    (addAll L db rs).2.rows.length = db.rows.length + rs.length ∧
      ∀ res ∈ (addAll L db rs).1, res.2.1 = false := by
  induction rs generalizing db with
  | nil => simp [addAll_nil]
  | cons r rs ih =>
    simp only [addAll_cons, List.mem_cons, forall_eq_or_imp] at hok
    simp only [List.map_cons, List.nodup_cons, List.mem_map, not_exists, not_and] at hnd
    simp only [List.mem_cons, forall_eq_or_imp] at hn
    have hn1 : ∀ x ∈ rs, ¬ (db.Add L r).2.Holds x.tuple := by
      intro x hx
      rw [Holds_Add L db r x.tuple hok.1]
      rintro (h1 | h1)
      · exact hn.2 x hx h1
      · exact hnd.1 x hx h1.symm
    have := ih (db.Add L r).2 hn1 hnd.2 hok.2
    simp only [addAll_cons, List.mem_cons, forall_eq_or_imp, List.length_cons]
    refine ⟨?_, (count_Add_of_not_Holds L db r hn.1 hok.1).1, this.2⟩
    rw [this.1]
    rcases Add_cases L db r with ⟨id, _, row, hmem, _, ht⟩ | ⟨_, _, h1⟩ | ⟨_, _, err, h1⟩
    · exact absurd ⟨row, hmem, ht⟩ hn.1
    · rw [h1]; simp only [List.length_append, List.length_singleton]; omega
    · have := hok.1
      rw [h1] at this
      simp at this

/-- C4: for every list of N records (fewer than 2^63) that share the time stamp text,
the name and the node and have pairwise different messages, adding them in any order
to the empty store yields N rows, and every one of the N calls returns without error
and reports no duplicate. -/
theorem C4_different_messages_all_stored (L : TimeLib) (rs order : List (Record L))
    (stamp name node : GoString) (hlen : rs.length < 2 ^ 63)
    (_hsame : ∀ r ∈ rs, L.Format r.TimeStamp = stamp ∧ r.Name = name ∧ r.Node = node)
    (hmsg : (rs.map (fun r => r.Message)).Nodup)
    (horder : order.Perm rs) :
    (addAll L Open order).2.rows.length = rs.length ∧
      (addAll L Open order).1.length = rs.length ∧
      ∀ res ∈ (addAll L Open order).1, res.2.1 = false ∧ res.2.2 = none := by
  have hlen1 : order.length < 2 ^ 63 := by rw [horder.length_eq]; exact hlen
  have hok := addAll_Open_no_error L order hlen1
  have hnd : (rs.map Record.tuple).Nodup := by
    have hinj : ∀ x ∈ rs, ∀ y ∈ rs, x.tuple = y.tuple → x.Message = y.Message := by
      intro x _ y _ hxy
      simp only [Record.tuple, Prod.mk.injEq] at hxy
      exact hxy.2.2.2
    rw [List.nodup_map_iff_inj_on (List.Nodup.of_map _ hmsg)]
    intro x hx y hy hxy
    exact List.inj_on_of_nodup_map hmsg hx hy (hinj x hx y hy hxy)
  have hnd1 : (order.map Record.tuple).Nodup := (horder.map _).nodup_iff.2 hnd
  have h := addAll_all_new L Open order (fun r _ => not_Holds_Open _) hnd1 hok
  refine ⟨?_, ?_, fun res hres => ⟨h.2 res hres, hok res hres⟩⟩
  · rw [h.1, horder.length_eq]
    simp [Open, initializeDB]
  · rw [addAll_length, horder.length_eq]

/-! ### The id that `Add` returns -/

/-- Once the ids are used up, no later call inserts. -/
theorem addAll_full (L : TimeLib) (db : DB) (rs : List (Record L))
    (hfull : ¬ db.lastID < maxInt64) :
    ∀ res ∈ (addAll L db rs).1, res.2.1 = true ∨ res.2.2 ≠ none := by
  induction rs generalizing db with
  | nil => simp [addAll_nil]
  | cons r rs ih =>
    simp only [addAll_cons, List.mem_cons, forall_eq_or_imp]
    rcases Add_cases L db r with ⟨id, h, _⟩ | ⟨_, hf, _⟩ | ⟨_, _, err, h⟩
    · rw [h]
      exact ⟨Or.inl rfl, ih db hfull⟩
    · exact absurd hf hfull
    · rw [h]
      exact ⟨Or.inr (by simp), ih db hfull⟩

/-- Where the id of a reported duplicate comes from: a row that was in the store before
the run, or the first call for that tuple in the run, which inserted it. -/
theorem addAll_duplicate_origin (L : TimeLib) (db : DB) (rs : List (Record L)) :
    ∀ (pre : List (Record L)) (r : Record L) (post : List (Record L)) (id : Int),
      rs = pre ++ r :: post →
      (addAll L db rs).1[pre.length]? = some (id, true, none) →
      (∃ row ∈ db.rows, row.ID = id ∧ row.tuple = r.tuple) ∨
      (¬ db.Holds r.tuple ∧ ∃ pre1 r1 mid, pre = pre1 ++ r1 :: mid ∧ r1.tuple = r.tuple ∧
        (∀ x ∈ pre1, x.tuple ≠ r.tuple) ∧
        (addAll L db rs).1[pre1.length]? = some (id, false, none)) := by
  induction rs generalizing db with
  | nil =>
    intro pre r post id hrs
    simp at hrs
  | cons r0 rs ih =>
    intro pre r post id hrs hres
    cases pre with
    | nil =>
      simp only [List.nil_append, List.cons.injEq] at hrs
      obtain ⟨rfl, rfl⟩ := hrs
      simp only [addAll_cons, List.length_nil, List.getElem?_cons_zero, Option.some.injEq]
        at hres
      rcases Add_cases L db r0 with ⟨id1, h, hrow⟩ | ⟨_, _, h⟩ | ⟨_, _, err, h⟩
      · rw [h] at hres
        simp only [Prod.mk.injEq, and_true] at hres
        exact Or.inl (hres ▸ hrow)
      · rw [h] at hres; simp at hres
      · rw [h] at hres; simp at hres
    | cons p0 pre =>
      simp only [List.cons_append, List.cons.injEq] at hrs
      obtain ⟨rfl, hrs⟩ := hrs
      simp only [addAll_cons, List.length_cons, List.getElem?_cons_succ] at hres
      rcases ih (db.Add L r0).2 pre r post id hrs hres with
        ⟨row, hmem, hid, ht⟩ | ⟨hn1, pre1, r1, mid, hpre, hr1, hfirst, hins⟩
      · rcases Add_cases L db r0 with ⟨id1, h, _⟩ | ⟨hn, _, h⟩ | ⟨_, _, err, h⟩
        · rw [h] at hmem
          exact Or.inl ⟨row, hmem, hid, ht⟩
        · rw [h] at hmem
          simp only [List.mem_append, List.mem_singleton] at hmem
          rcases hmem with hmem | hmem
          · exact Or.inl ⟨row, hmem, hid, ht⟩
          · right
            subst hmem
            have ht0 : r0.tuple = r.tuple := ht
            refine ⟨ht0 ▸ hn, [], r0, pre, rfl, ht0, by simp, ?_⟩
            simp only [addAll_cons, List.length_nil, List.getElem?_cons_zero]
            rw [h]
            simp only at hid
            rw [hid]
        · rw [h] at hmem
          exact Or.inl ⟨row, hmem, hid, ht⟩
      · right
        have hn : ¬ db.Holds r.tuple := fun hh => hn1 (Holds_Add_of_Holds L db r0 _ hh)
        have hne : r0.tuple ≠ r.tuple := by
          intro heq
          rcases Add_cases L db r0 with ⟨id1, _, row, hmem, _, ht⟩ | ⟨_, _, h⟩ | ⟨_, hf, err, h⟩
          · exact hn ⟨row, hmem, ht.trans heq⟩
          · apply hn1
            rw [h, Holds_append_single]
            exact Or.inr heq
          · rw [h] at hins
            have hmem := List.getElem?_mem hins
            rcases addAll_full L db rs hf _ hmem with h1 | h1
            · simp at h1
            · simp at h1
        refine ⟨hn, r0 :: pre1, r1, mid, by rw [hpre]; rfl, hr1, ?_, ?_⟩
        · intro x hx
          simp only [List.mem_cons] at hx
          rcases hx with rfl | hx
          · exact hne
          · exact hfirst x hx
        · simpa only [addAll_cons, List.length_cons, List.getElem?_cons_succ] using hins

/-- C7: `Add` returns the identity of the matching row.  When it inserts, the id it
returns is the id of the row it appended and differs from the id of every row that was
there; when it reports a duplicate, the id is that of a stored row with the record's
tuple, and in a run from the empty store it is the id returned by the first call for
that tuple, the one that inserted it.  So adding a record twice to a store that does not
hold it yet and has ids left returns `(id, false, nil)` and then `(id, true, nil)`. -/
theorem C7_add_returns_identity_of_matching_row (L : TimeLib) :
    (∀ (db : DB) (r : Record L) (id : Int), (db.Add L r).1 = (id, false, none) →
        (db.Add L r).2.rows =
          db.rows ++ [⟨id, L.Format r.TimeStamp, r.Name, r.Node, r.Message⟩] ∧
        ∀ row ∈ db.rows, row.ID ≠ id) ∧
    (∀ (db : DB) (r : Record L) (id : Int), (db.Add L r).1 = (id, true, none) →
        ∃ row ∈ db.rows, row.ID = id ∧ row.tuple = r.tuple) ∧
    (∀ (pre : List (Record L)) (r : Record L) (post : List (Record L)) (id : Int),
        (addAll L Open (pre ++ r :: post)).1[pre.length]? = some (id, true, none) →
        ∃ pre1 r1 mid, pre = pre1 ++ r1 :: mid ∧ r1.tuple = r.tuple ∧
          (∀ x ∈ pre1, x.tuple ≠ r.tuple) ∧
          (addAll L Open (pre ++ r :: post)).1[pre1.length]? = some (id, false, none)) ∧
    (∀ (db : DB) (r : Record L), ¬ db.Holds r.tuple → db.lastID < maxInt64 →
        ∃ id, (addAll L db [r, r]).1 = [(id, false, none), (id, true, none)]) := by
  refine ⟨?_, ?_, ?_, ?_⟩
  · intro db r id h
    rcases Add_cases L db r with ⟨id1, h1, _⟩ | ⟨_, _, h1⟩ | ⟨_, _, err, h1⟩
    · rw [h1] at h; simp at h
    · rw [h1] at h ⊢
      simp only [Prod.mk.injEq, and_true] at h
      subst h
      refine ⟨rfl, ?_⟩
      intro row hrow heq
      have := ID_le_lastID db hrow
      omega
    · rw [h1] at h; simp at h
  · intro db r id h
    rcases Add_cases L db r with ⟨id1, h1, hrow⟩ | ⟨_, _, h1⟩ | ⟨_, _, err, h1⟩
    · rw [h1] at h
      simp only [Prod.mk.injEq, and_true] at h
      exact h ▸ hrow
    · rw [h1] at h; simp at h
    · rw [h1] at h; simp at h
  · intro pre r post id hres
    rcases addAll_duplicate_origin L Open _ pre r post id rfl hres with
      ⟨row, hmem, _⟩ | ⟨_, h⟩
    · simp [Open, initializeDB] at hmem
    · exact h
  · intro db r hn hf
    rcases Add_cases L db r with ⟨id1, _, row, hmem, _, ht⟩ | ⟨_, _, h1⟩ | ⟨_, hf1, _⟩
    · exact absurd ⟨row, hmem, ht⟩ hn
    · refine ⟨db.lastID + 1, ?_⟩
      have hh : (db.Add L r).2.Holds r.tuple := by
        rw [h1, Holds_append_single]
        exact Or.inr rfl
      rcases Add_cases L (db.Add L r).2 r with ⟨id2, h2, row, hmem, hid, ht⟩ | ⟨hn2, _, _⟩ |
        ⟨hn2, _, _⟩
      · simp only [addAll_cons, addAll_nil, h2]
        rw [h1] at hmem ⊢
        simp only [List.mem_append, List.mem_singleton] at hmem
        rcases hmem with hmem | hmem
        · exact absurd ⟨row, hmem, ht⟩ hn
        · subst hmem
          simp only at hid
          rw [hid]
      · exact absurd hh hn2
      · exact absurd hh hn2
    · exact absurd hf hf1

/-! ## The parser: `NewRecord` -/

theorem slice?_eq_some (s : GoString) (lo hi : Int)
    (h : 0 ≤ lo ∧ lo ≤ hi ∧ hi ≤ (s.length : Int)) :
    slice? s lo hi = some ((s.drop lo.toNat).take (hi - lo).toNat) := by
  simp only [slice?, h, and_self, if_true]

theorem sliceTo?_natCast (s : GoString) (i : Nat) (h : i ≤ s.length) :
    sliceTo? s (i : Int) = some (s.take i) := by
  rw [sliceTo?, slice?_eq_some s 0 i ⟨le_rfl, by omega, by omega⟩]
  simp

theorem sliceFrom?_natCast (s : GoString) (i : Nat) (h : i ≤ s.length) :
    sliceFrom? s (i : Int) = some (s.drop i) := by
  rw [sliceFrom?, slice?_eq_some s i s.length ⟨by omega, by omega, le_rfl⟩]
  simp only [Int.toNat_ofNat, Option.some.injEq]
  apply List.take_of_length_le
  simp only [List.length_drop]
  omega

/-- What `strings.Split` returns: a first field without the separator; it is the whole
text when it is the only field, and otherwise the text is the first field, a separator,
and the text that splits into the other fields. -/
theorem Split_decomp (s : GoString) (sep : Char) :
    ∃ f fs, Split s sep = f :: fs ∧ sep ∉ f ∧
      ((fs = [] ∧ s = f) ∨ ∃ rest, s = f ++ sep :: rest ∧ fs = Split rest sep) := by
  induction s with
  | nil => exact ⟨[], [], rfl, by simp, Or.inl ⟨rfl, rfl⟩⟩
  | cons c cs ih =>
    by_cases hc : c = sep
    · refine ⟨[], Split cs sep, by simp [Split, hc], by simp, Or.inr ⟨cs, by simp [hc], rfl⟩⟩
    · obtain ⟨f, fs, hsplit, hf, hrest⟩ := ih
      refine ⟨c :: f, fs, by simp [Split, hc, hsplit], ?_, ?_⟩
      · simp only [List.mem_cons, not_or]
        exact ⟨fun h => hc h.symm, hf⟩
      · rcases hrest with ⟨h1, h2⟩ | ⟨rest, h1, h2⟩
        · exact Or.inl ⟨h1, by rw [h2]⟩
        · exact Or.inr ⟨rest, by rw [h1]; rfl, h2⟩

/-- Joining the fields with the separator gives back the text. -/
theorem Split_intercalate (s : GoString) (sep : Char) :
    List.intercalate [sep] (Split s sep) = s := by
  induction s with
  | nil => rfl
  | cons c cs ih =>
    obtain ⟨f, fs, hsplit, _, _⟩ := Split_decomp cs sep
    rw [hsplit] at ih
    by_cases hc : c = sep
    · simp only [Split, hc, if_true, hsplit]
      rw [← hc] at ih ⊢
      cases fs with
      | nil =>
        simp only [List.intercalate, List.intersperse, List.flatten, List.append_nil] at ih ⊢
        rw [ih]
        rfl
      | cons g gs =>
        simp only [List.intercalate, List.intersperse, List.flatten, List.nil_append,
          List.singleton_append] at ih ⊢
        rw [ih]
    · simp only [Split, hc, if_false, hsplit]
      cases fs with
      | nil =>
        simp only [List.intercalate, List.intersperse, List.flatten, List.append_nil] at ih ⊢
        rw [ih]
      | cons g gs =>
        simp only [List.intercalate, List.intersperse, List.flatten, List.cons_append] at ih ⊢
        rw [ih]

theorem Split_ne_nil (s : GoString) (sep : Char) : Split s sep ≠ [] := by
  obtain ⟨f, fs, h, _⟩ := Split_decomp s sep
  simp [h]

/-- The number of fields is the number of separators plus one. -/
theorem Split_length (s : GoString) (sep : Char) :
    (Split s sep).length = s.count sep + 1 := by
  induction s with
  | nil => rfl
  | cons c cs ih =>
    by_cases hc : c = sep
    · simp [Split, hc, ih]
    · have hlen : (Split (c :: cs) sep).length = (Split cs sep).length := by
        have hne := Split_ne_nil cs sep
        simp only [Split, hc, if_false]
        cases h : Split cs sep with
        | nil => exact absurd h hne
        | cons f fs => simp
      rw [hlen, ih, List.count_cons_of_ne (fun h => hc h.symm)]

theorem Split_append_sep (f rest : GoString) (sep : Char) (hf : sep ∉ f) :
    Split (f ++ sep :: rest) sep = f :: Split rest sep := by
  induction f with
  | nil => simp [Split]
  | cons c f ih =>
    simp only [List.mem_cons, not_or] at hf
    have hc : c ≠ sep := fun h => hf.1 h.symm
    simp [Split, hc, ih hf.2]

/-- A line splits into at least three fields exactly when it is a first field, a
separator, a second field, a separator and a rest, the two fields free of separators. -/
theorem Split_three (input : GoString) (sep : Char) :
    3 ≤ (Split input sep).length ↔
      ∃ when who rest, sep ∉ when ∧ sep ∉ who ∧ input = when ++ sep :: (who ++ sep :: rest) := by
  constructor
  · intro h
    obtain ⟨f, fs, h1, hf, hrest⟩ := Split_decomp input sep
    rcases hrest with ⟨h2, _⟩ | ⟨rest, h2, h3⟩
    · rw [h1, h2] at h
      simp at h
    · obtain ⟨g, gs, g1, hg, grest⟩ := Split_decomp rest sep
      rcases grest with ⟨g2, _⟩ | ⟨rest1, g2, _⟩
      · rw [h1, h3, g1, g2] at h
        simp at h
      · exact ⟨f, g, rest1, hf, hg, by rw [h2, g2]⟩
  · rintro ⟨when, who, rest, h1, h2, rfl⟩
    rw [Split_append_sep _ _ _ h1, Split_append_sep _ _ _ h2]
    have := Split_ne_nil rest sep
    cases h : Split rest sep with
    | nil => exact absurd h this
    | cons a l => simp

theorem indexByte?_eq_none (s : GoString) (b : Char) : indexByte? s b = none ↔ b ∉ s := by
  induction s with
  | nil => simp [indexByte?]
  | cons c cs ih =>
    by_cases hc : c = b
    · simp [indexByte?, hc]
    · have hc1 : ¬ b = c := fun h => hc h.symm
      simp [indexByte?, hc, hc1, ih]

theorem indexByte?_eq_some {s : GoString} {b : Char} {i : Nat} (h : indexByte? s b = some i) :
    i < s.length ∧ s = s.take i ++ b :: s.drop (i + 1) ∧ b ∉ s.take i := by
  induction s generalizing i with
  | nil => simp [indexByte?] at h
  | cons c cs ih =>
    by_cases hc : c = b
    · simp only [indexByte?, hc, if_true, Option.some.injEq] at h
      subst h
      simp [hc]
    · simp only [indexByte?, hc, if_false, Option.map_eq_some'] at h
      obtain ⟨j, hj, rfl⟩ := h
      obtain ⟨h1, h2, h3⟩ := ih hj
      refine ⟨by simp only [List.length_cons]; omega, ?_, ?_⟩
      · simp only [List.take_succ_cons, List.drop_succ_cons, List.cons_append]
        rw [← h2]
      · simp only [List.take_succ_cons, List.mem_cons, not_or]
        exact ⟨fun h => hc h.symm, h3⟩

/-- A name, an underscore and a node, the name free of underscores: `strings.Index`
finds the underscore right after the name. -/
theorem indexByte?_append (name node : GoString) (b : Char) (h : b ∉ name) :
    indexByte? (name ++ b :: node) b = some name.length := by
  induction name with
  | nil => simp [indexByte?]
  | cons c name ih =>
    simp only [List.mem_cons, not_or] at h
    have hc : c ≠ b := fun h1 => h.1 h1.symm
    simp [indexByte?, hc, ih h.2]

/-- The result of `getTime` on a token of 23 bytes: no slice is out of range, and the
answer is that of `time.Parse` on the layout text, moved to the local zone. -/
theorem getTime_of_length (L : TimeLib) (when : GoString) (h : when.length = 23) :
    getTime L when =
      some (match L.Parse (layoutText when) with
        | .error err => .error err
        | .ok t => .ok (L.Local t)) := by
  have h1 : sliceTo? when 8 = some (when.take 8) :=
    sliceTo?_natCast when 8 (by omega)
  have h2 : slice? when 13 19 = some ((when.drop 13).take 6) := by
    rw [slice?_eq_some when 13 19 ⟨by omega, by omega, by omega⟩]
    rfl
  have h3 : sliceFrom? when 20 = some (when.drop 20) :=
    sliceFrom?_natCast when 20 (by omega)
  simp only [getTime, h1, h2, h3, Option.bind_eq_bind, Option.some_bind, layoutText]
  cases L.Parse (when.take 8 ++ [' '] ++ (when.drop 13).take 6 ++ [' '] ++ when.drop 20) <;> rfl

theorem NewRecord_of_few_fields (L : TimeLib) (input : GoString)
    (h : (Split input '|').length < 3) : NewRecord L input = some (none, none) := by
  unfold NewRecord
  simp [h]

theorem drop_fields (when who rest : GoString) (c : Char) :
    (when ++ c :: (who ++ c :: rest)).drop (when.length + who.length + 2) = rest := by
  have : when ++ c :: (who ++ c :: rest) = (when ++ c :: (who ++ [c])) ++ rest := by simp
  rw [this]
  apply List.drop_left'
  simp only [List.length_append, List.length_cons, List.length_nil]
  omega

/-- The result of `NewRecord` on a line of at least three fields, in terms of the first
field `when`, the second field `who` and the text `rest` after the second separator. -/
theorem NewRecord_of_fields (L : TimeLib) (when who rest : GoString)
    (h1 : '|' ∉ when) (h2 : '|' ∉ who) :
    NewRecord L (when ++ '|' :: (who ++ '|' :: rest)) =
      some (if when.length ≠ 23 then (none, none)
        else
          match L.Parse (layoutText when) with
          | .error err => (none, some err)
          | .ok t =>
            match indexByte? who '_' with
            | none => (none, none)
            | some i => (some ⟨L.Local t, who.take i, who.drop (i + 1), rest⟩, none)) := by
  have hsplit : Split (when ++ '|' :: (who ++ '|' :: rest)) '|' = when :: who :: Split rest '|' := by
    rw [Split_append_sep _ _ _ h1, Split_append_sep _ _ _ h2]
  have hlen : ¬ (when :: who :: Split rest '|').length < 3 := by
    have := Split_ne_nil rest '|'
    cases h : Split rest '|' with
    | nil => exact absurd h this
    | cons a l => simp
  unfold NewRecord
  rw [hsplit]
  simp only [hlen, if_false, List.getElem?_cons_zero, List.getElem?_cons_succ,
    Option.bind_eq_bind, Option.some_bind, bind_pure_comp, pure]
  by_cases h23 : when.length = 23
  · simp only [h23, ne_eq, not_true_eq_false, if_false, getTime_of_length L when h23,
      Option.some_bind]
    cases L.Parse (layoutText when) with
    | error err => rfl
    | ok t =>
      simp only
      cases hi : indexByte? who '_' with
      | none => simp [Index, hi]
      | some i =>
        obtain ⟨hlt, _, _⟩ := indexByte?_eq_some hi
        have hp : Index who '_' = (i : Int) := by simp [Index, hi]
        have hne : ¬ ((i : Int) = -1) := by omega
        have hname : sliceTo? who (i : Int) = some (who.take i) :=
          sliceTo?_natCast who i (by omega)
        have hnode : sliceFrom? who ((i : Int) + 1) = some (who.drop (i + 1)) := by
          have := sliceFrom?_natCast who (i + 1) (by omega)
          simpa using this
        have hmsg : sliceFrom? (when ++ '|' :: (who ++ '|' :: rest))
            ((23 : Int) + (who.length : Int) + 2) = some rest := by
          have := sliceFrom?_natCast (when ++ '|' :: (who ++ '|' :: rest))
            (when.length + who.length + 2)
            (by simp only [List.length_append, List.length_cons]; omega)
          rw [drop_fields, h23] at this
          simpa using this
        simp only [hp, hne, if_false, hname, hnode, hmsg, Option.some_bind, Option.map_some',
          Option.bind_eq_bind, Nat.cast_ofNat]
  · simp [h23]

/-- What a returned record is made of, for a line cut into its first field, its second
field and the text after the second separator. -/
theorem NewRecord_record_fields (L : TimeLib) (when who rest : GoString)
    (h1 : '|' ∉ when) (h2 : '|' ∉ who) (r : Record L) (e : Option Error)
    (h : NewRecord L (when ++ '|' :: (who ++ '|' :: rest)) = some (some r, e)) :
    when.length = 23 ∧ e = none ∧
      ∃ t i, L.Parse (layoutText when) = .ok t ∧ indexByte? who '_' = some i ∧
        r = ⟨L.Local t, who.take i, who.drop (i + 1), rest⟩ := by
  rw [NewRecord_of_fields L when who rest h1 h2] at h
  by_cases h23 : when.length = 23
  · simp only [h23, ne_eq, not_true_eq_false, if_false, Option.some.injEq] at h
    cases hp : L.Parse (layoutText when) with
    | error err => rw [hp] at h; simp at h
    | ok t =>
      rw [hp] at h
      cases hi : indexByte? who '_' with
      | none => rw [hi] at h; simp at h
      | some i =>
        rw [hi] at h
        simp only [Prod.mk.injEq, Option.some.injEq] at h
        exact ⟨h23, h.2.symm, t, i, rfl, rfl, h.1.symm⟩
  · simp [h23] at h

theorem NewRecord_record_three_fields (L : TimeLib) (input : GoString) (r : Record L)
    (e : Option Error) (h : NewRecord L input = some (some r, e)) :
    ∃ when who rest, '|' ∉ when ∧ '|' ∉ who ∧ input = when ++ '|' :: (who ++ '|' :: rest) := by
  by_cases hlen : (Split input '|').length < 3
  · rw [NewRecord_of_few_fields L input hlen] at h
    simp at h
  · exact (Split_three input '|').1 (by omega)

/-- C8: for every input line for which `NewRecord` returns a record, the record's
message is the text of the line after its second `|`, further `|` kept in place and
possibly empty: the line is `when|who|rest` with no `|` in `when` or `who`, and however
it is written so, the message is `rest`. -/
theorem C8_message_is_text_after_second_pipe (L : TimeLib) (input : GoString)
    (r : Record L) (e : Option Error) (h : NewRecord L input = some (some r, e)) :
    (∃ when who rest, '|' ∉ when ∧ '|' ∉ who ∧
        input = when ++ ['|'] ++ who ++ ['|'] ++ rest ∧ r.Message = rest) ∧
    (∀ when who rest, '|' ∉ when → '|' ∉ who →
        input = when ++ ['|'] ++ who ++ ['|'] ++ rest → r.Message = rest) := by
  have hall : ∀ when who rest, '|' ∉ when → '|' ∉ who →
      input = when ++ ['|'] ++ who ++ ['|'] ++ rest → r.Message = rest := by
    intro when who rest h1 h2 hin
    have hin1 : input = when ++ '|' :: (who ++ '|' :: rest) := by rw [hin]; simp
    subst hin1
    obtain ⟨_, _, t, i, _, _, hr⟩ := NewRecord_record_fields L when who rest h1 h2 r e h
    rw [hr]
  refine ⟨?_, hall⟩
  obtain ⟨when, who, rest, h1, h2, hin⟩ := NewRecord_record_three_fields L input r e h
  have hin1 : input = when ++ ['|'] ++ who ++ ['|'] ++ rest := by rw [hin]; simp
  exact ⟨when, who, rest, h1, h2, hin1, hall when who rest h1 h2 hin1⟩

/-- C9: round trip of the textual fields.  For every input line for which `NewRecord`
returns a record, writing the record's name, `_`, its node, `|` and its message (the
`NAME_NODE|MESSAGE` part of the line that `run` writes) gives back the input line
without its 23-byte time stamp token and first `|`. -/
theorem C9_name_node_message_round_trip (L : TimeLib) (input : GoString)
    (r : Record L) (e : Option Error) (h : NewRecord L input = some (some r, e)) :
    r.Name ++ ['_'] ++ r.Node ++ ['|'] ++ r.Message = input.drop 24 ∧
      (input.take 23).length = 23 ∧ '|' ∉ input.take 23 ∧ input[23]? = some '|' := by
  obtain ⟨when, who, rest, h1, h2, hin⟩ := NewRecord_record_three_fields L input r e h
  subst hin
  obtain ⟨h23, _, t, i, _, hi, hr⟩ := NewRecord_record_fields L when who rest h1 h2 r e h
  obtain ⟨_, hwho, _⟩ := indexByte?_eq_some hi
  have htake : (when ++ '|' :: (who ++ '|' :: rest)).take 23 = when := by
    rw [← h23]
    simp
  have hdrop : (when ++ '|' :: (who ++ '|' :: rest)).drop 24 = who ++ '|' :: rest := by
    have : when ++ '|' :: (who ++ '|' :: rest) = (when ++ ['|']) ++ (who ++ '|' :: rest) := by
      simp
    rw [this]
    apply List.drop_left'
    simp [h23]
  refine ⟨?_, by rw [htake, h23], by rw [htake]; exact h1, ?_⟩
  · rw [hdrop, hr]
    simp only
    conv_rhs => rw [hwho]
    simp
  · rw [List.getElem?_append_right (by omega), h23]
    simp

/-- C10: for every input line that splits on `|` into fewer than three fields, or whose
first field is not exactly 23 bytes long, `NewRecord` returns `nil, nil` (not a record):
no record and no error. -/
theorem C10_malformed_line_is_not_a_record (L : TimeLib) (input : GoString)
    (h : (Split input '|').length < 3 ∨ ((Split input '|').headD []).length ≠ 23) :
    NewRecord L input = some (none, none) := by
  by_cases hlen : (Split input '|').length < 3
  · exact NewRecord_of_few_fields L input hlen
  · rcases h with h | h
    · exact absurd h hlen
    · obtain ⟨when, who, rest, h1, h2, rfl⟩ := (Split_three input '|').1 (by omega)
      rw [Split_append_sep _ _ _ h1] at h
      simp only [List.headD_cons] at h
      rw [NewRecord_of_fields L when who rest h1 h2]
      simp [h]

/-! ## The record reader -/

theorem textLE_total (a b : GoString) : textLE a b = true ∨ textLE b a = true := by
  induction a generalizing b with
  | nil => simp [textLE]
  | cons x a ih =>
    cases b with
    | nil => simp [textLE]
    | cons y b =>
      simp only [textLE]
      rcases Nat.lt_trichotomy x.toNat y.toNat with h | h | h
      · simp [h]
      · simp [h, ih b]
      · have h1 : ¬ x.toNat < y.toNat := by omega
        simp [h, h1]

theorem textLE_trans {a b c : GoString} (hab : textLE a b = true) (hbc : textLE b c = true) :
    textLE a c = true := by
  induction a generalizing b c with
  | nil => simp [textLE]
  | cons x a ih =>
    cases b with
    | nil => simp [textLE] at hab
    | cons y b =>
      cases c with
      | nil => simp [textLE] at hbc
      | cons z c =>
        simp only [textLE] at hab hbc ⊢
        by_cases hxy : x.toNat < y.toNat
        · by_cases hyz : y.toNat < z.toNat
          · have : x.toNat < z.toNat := by omega
            simp [this]
          · by_cases hzy : z.toNat < y.toNat
            · simp [hyz, hzy] at hbc
            · have : x.toNat < z.toNat := by omega
              simp [this]
        · by_cases hyx : y.toNat < x.toNat
          · simp [hxy, hyx] at hab
          · simp only [hxy, hyx, if_false] at hab
            by_cases hyz : y.toNat < z.toNat
            · have : x.toNat < z.toNat := by omega
              simp [this]
            · by_cases hzy : z.toNat < y.toNat
              · simp [hyz, hzy] at hbc
              · simp only [hyz, hzy, if_false] at hbc
                have h1 : ¬ x.toNat < z.toNat := by omega
                have h2 : ¬ z.toNat < x.toNat := by omega
                simp only [h1, h2, if_false]
                exact ih hab hbc

/-- The ordered query returns every row of the table once. -/
theorem QueryOrdered_perm (db : DB) : db.QueryOrdered.Perm (db.rows.map Row.tuple) :=
  (List.perm_insertionSort _ db.rows).map Row.tuple

theorem textLE_refl (a : GoString) : textLE a a = true := by
  induction a with
  | nil => rfl
  | cons x a ih => simp [textLE, ih]

theorem textLE_antisymm {a b : GoString} (hab : textLE a b = true) (hba : textLE b a = true) :
    a = b := by
  induction a generalizing b with
  | nil =>
    cases b with
    | nil => rfl
    | cons y b => simp [textLE] at hba
  | cons x a ih =>
    cases b with
    | nil => simp [textLE] at hab
    | cons y b =>
      simp only [textLE] at hab hba
      by_cases hxy : x.toNat < y.toNat
      · have hyx : ¬ y.toNat < x.toNat := by omega
        simp [hxy, hyx] at hba
      · by_cases hyx : y.toNat < x.toNat
        · simp [hxy, hyx] at hab
        · simp only [hxy, hyx, if_false] at hab hba
          have hnat : x.toNat = y.toNat := by omega
          have hx : x = y := Char.ext (UInt32.ext hnat)
          rw [hx, ih hab hba]

theorem lexLE_total (ka kb : GoString) (r1 r2 : Bool) (h : r1 = true ∨ r2 = true) :
    lexLE ka kb r1 = true ∨ lexLE kb ka r2 = true := by
  by_cases hk : ka = kb
  · subst hk
    simpa [lexLE] using h
  · have hk1 : ¬ kb = ka := fun h1 => hk h1.symm
    simpa [lexLE, hk, hk1] using textLE_total ka kb

theorem lexLE_trans (ka kb kc : GoString) (rab rbc rac : Bool)
    (hrest : rab = true → rbc = true → rac = true)
    (hab : lexLE ka kb rab = true) (hbc : lexLE kb kc rbc = true) :
    lexLE ka kc rac = true := by
  by_cases h1 : ka = kb
  · subst h1
    by_cases h2 : ka = kc
    · subst h2
      simp only [lexLE, ne_eq, not_true_eq_false, if_false] at hab hbc ⊢
      exact hrest hab hbc
    · simpa [lexLE, h2] using hbc
  · by_cases h2 : kb = kc
    · subst h2
      simpa [lexLE, h1] using hab
    · simp only [lexLE, ne_eq, h1, h2, not_false_eq_true, if_true] at hab hbc
      have hac := textLE_trans hab hbc
      have h3 : ¬ ka = kc := by
        intro h3
        subst h3
        exact h1 (textLE_antisymm hab hbc)
      simpa [lexLE, h3] using hac

theorem comboLE_total (a b : Row) : comboLE a b = true ∨ comboLE b a = true := by
  unfold comboLE
  apply lexLE_total
  apply lexLE_total
  apply lexLE_total
  simp only [decide_eq_true_eq]
  exact le_total a.ID b.ID

theorem comboLE_trans {a b c : Row} (hab : comboLE a b = true) (hbc : comboLE b c = true) :
    comboLE a c = true := by
  unfold comboLE at hab hbc ⊢
  refine lexLE_trans _ _ _ _ _ _ ?_ hab hbc
  refine lexLE_trans _ _ _ _ _ _ ?_
  refine lexLE_trans _ _ _ _ _ _ ?_
  simp only [decide_eq_true_eq]
  exact le_trans

theorem comboLE_TimeStamp {a b : Row} (h : comboLE a b = true) :
    textLE a.TimeStamp b.TimeStamp = true := by
  unfold comboLE lexLE at h
  by_cases hk : a.TimeStamp = b.TimeStamp
  · rw [hk]
    exact textLE_refl _
  · simpa [hk] using h

/-- The ordered query returns the rows in the byte order of their time stamp text. -/
theorem QueryOrdered_sorted (db : DB) :
    db.QueryOrdered.Pairwise (fun a b => textLE a.1 b.1 = true) := by
  have h := @List.sorted_insertionSort Row (fun a b => comboLE a b = true) _
    ⟨comboLE_total⟩ ⟨fun _ _ _ h1 h2 => comboLE_trans h1 h2⟩ db.rows
  exact List.pairwise_map.2 (List.Pairwise.imp comboLE_TimeStamp h)

theorem Drains_not_panicked {L : TimeLib} {rr : RecordReader L} {out : List (Record L)}
    (h : Drains L rr out) : rr.panicked = false := by
  cases hp : rr.panicked with
  | false => rfl
  | true =>
    cases h with
    | done h1 => simp [RecordReader.ReadRecord, hp] at h1
    | recv h1 _ => simp [RecordReader.ReadRecord, hp] at h1
    | step h1 _ => simp [readStep, hp] at h1

/-- Whatever the schedule, a loop that comes to its end has received the records that
were waiting in the channel followed by the records of the rows `read` still had to
scan, all of which parsed. -/
theorem Drains_eq {L : TimeLib} {rr : RecordReader L} {out : List (Record L)}
    (h : Drains L rr out) :
    ∃ recs, scanAll L rr.remaining = some recs ∧ out = rr.buffer ++ recs := by
  induction h with
  | @done rr rr1 h1 =>
    obtain ⟨cursor, buffer, closed, panicked⟩ := rr
    cases panicked <;> cases buffer <;> cases closed <;>
      simp [RecordReader.ReadRecord, RecordReader.remaining, scanAll] at h1 ⊢
  | @recv rr rr1 record out h1 _ ih =>
    obtain ⟨cursor, buffer, closed, panicked⟩ := rr
    obtain ⟨recs, hrecs, hout⟩ := ih
    cases panicked with
    | true => simp [RecordReader.ReadRecord] at h1
    | false =>
      cases buffer with
      | nil => cases closed <;> simp [RecordReader.ReadRecord] at h1
      | cons b rest =>
        simp only [RecordReader.ReadRecord, Bool.false_eq_true, if_false, Option.some.injEq,
          Prod.mk.injEq, and_true] at h1
        obtain ⟨rfl, rfl⟩ := h1
        exact ⟨recs, hrecs, by rw [hout]; rfl⟩
  | @step rr rr1 out h1 h2 ih =>
    obtain ⟨cursor, buffer, closed, panicked⟩ := rr
    obtain ⟨recs, hrecs, hout⟩ := ih
    have hp1 := Drains_not_panicked h2
    cases panicked with
    | true => simp [readStep] at h1
    | false =>
      cases closed with
      | true => simp [readStep] at h1
      | false =>
        cases cursor with
        | nil =>
          simp only [readStep, Bool.false_eq_true, or_self, if_false, Option.some.injEq] at h1
          subst h1
          simp only [RecordReader.remaining, if_true, scanAll, Option.some.injEq] at hrecs
          exact ⟨recs, by simp [RecordReader.remaining, scanAll, hrecs], hout⟩
        | cons row rows =>
          obtain ⟨stamp, name, node, message⟩ := row
          simp only [readStep, Bool.false_eq_true, or_self, if_false] at h1
          cases hparse : L.Parse stamp with
          | error err =>
            rw [hparse] at h1
            simp only [Option.some.injEq] at h1
            subst h1
            simp at hp1
          | ok dt =>
            rw [hparse] at h1
            by_cases hfull : buffer.length < bufferSize
            · simp only [hfull, if_true, Option.some.injEq] at h1
              subst h1
              simp only [RecordReader.remaining, Bool.false_eq_true, if_false] at hrecs
              refine ⟨⟨dt, name, node, message⟩ :: recs, ?_, ?_⟩
              · simp [RecordReader.remaining, scanAll, hparse, hrecs]
              · rw [hout]; simp
            · simp [hfull] at h1

/-- The loop of `run` comes to its end under the schedule of `drain` whenever all rows
left parse, and it has then received the waiting records and those of the rows left. -/
theorem drain_eq (L : TimeLib) (fuel : Nat) (rr : RecordReader L) (recs : List (Record L))
    (hp : rr.panicked = false) (hs : scanAll L rr.remaining = some recs)
    (hf : rr.buffer.length + 1 + (if rr.closed then 0 else 2 * rr.cursor.length + 1) ≤ fuel) :
    drain L fuel rr = some (rr.buffer ++ recs) := by
  induction fuel generalizing rr recs with
  | zero => omega
  | succ fuel ih =>
    obtain ⟨cursor, buffer, closed, panicked⟩ := rr
    simp only at hp
    subst hp
    cases buffer with
    | cons b rest =>
      simp only [drain, RecordReader.ReadRecord, Bool.false_eq_true, if_false]
      rw [ih ⟨cursor, rest, closed, false⟩ recs rfl hs
        (by simp only [List.length_cons] at hf ⊢; omega)]
      rfl
    | nil =>
      cases closed with
      | true =>
        simp only [RecordReader.remaining, if_true, scanAll, Option.some.injEq] at hs
        simp [drain, RecordReader.ReadRecord, ← hs]
      | false =>
        simp only [RecordReader.remaining, Bool.false_eq_true, if_false] at hs
        cases cursor with
        | nil =>
          simp only [scanAll, Option.some.injEq] at hs
          simp only [drain, RecordReader.ReadRecord, readStep, Bool.false_eq_true, if_false,
            or_self]
          rw [ih ⟨[], [], true, false⟩ [] rfl (by simp [RecordReader.remaining, scanAll])
            (by simp at hf ⊢; omega)]
          rw [← hs]
        | cons row rows =>
          obtain ⟨stamp, name, node, message⟩ := row
          simp only [scanAll] at hs
          cases hparse : L.Parse stamp with
          | error err => rw [hparse] at hs; simp at hs
          | ok dt =>
            rw [hparse] at hs
            simp only [Option.map_eq_some'] at hs
            obtain ⟨recs1, hs1, rfl⟩ := hs
            simp only [drain, RecordReader.ReadRecord, readStep, Bool.false_eq_true, if_false,
              or_self, hparse, List.length_nil, bufferSize, Nat.ofNat_pos, if_true,
              List.nil_append]
            rw [ih ⟨rows, [⟨dt, name, node, message⟩], false, false⟩ recs1 rfl
              (by simp [RecordReader.remaining, hs1])
              (by
                simp only [List.length_cons, List.length_nil, Bool.false_eq_true, if_false]
                  at hf ⊢
                omega)]
            rfl

/-- What `drain` returns is what the loop receives under one of the schedules. -/
theorem drain_Drains (L : TimeLib) (fuel : Nat) (rr : RecordReader L) (out : List (Record L))
    (h : drain L fuel rr = some out) : Drains L rr out := by
  induction fuel generalizing rr out with
  | zero => simp [drain] at h
  | succ fuel ih =>
    obtain ⟨cursor, buffer, closed, panicked⟩ := rr
    cases panicked with
    | true => simp [drain, RecordReader.ReadRecord, readStep] at h
    | false =>
      cases buffer with
      | cons b rest =>
        simp only [drain, RecordReader.ReadRecord, Bool.false_eq_true, if_false,
          Option.map_eq_some'] at h
        obtain ⟨out1, h1, rfl⟩ := h
        exact @Drains.recv L _ ⟨cursor, rest, closed, false⟩ _ _
          (by simp [RecordReader.ReadRecord]) (ih _ _ h1)
      | nil =>
        cases closed with
        | true =>
          simp only [drain, RecordReader.ReadRecord, Bool.false_eq_true, if_false, if_true,
            Option.some.injEq] at h
          subst h
          exact @Drains.done L _ ⟨cursor, [], true, false⟩ (by simp [RecordReader.ReadRecord])
        | false =>
          simp only [drain, RecordReader.ReadRecord, Bool.false_eq_true, if_false] at h
          cases hstep : readStep L ⟨cursor, [], false, false⟩ with
          | none => rw [hstep] at h; simp at h
          | some rr1 =>
            rw [hstep] at h
            exact Drains.step hstep (ih _ _ h)

/-- When every row's time stamp text parses to a time that formats back to the same
text, `read` gets through the rows and the records it sends carry the rows' tuples. -/
theorem scanAll_of_round_trip (L : TimeLib)
    (rows : List (GoString × GoString × GoString × GoString))
    (h : ∀ row ∈ rows, ∃ t, L.Parse row.1 = .ok t ∧ L.Format t = row.1) :
    ∃ recs, scanAll L rows = some recs ∧ recs.map Record.tuple = rows := by
  induction rows with
  | nil => exact ⟨[], rfl, rfl⟩
  | cons row rows ih =>
    obtain ⟨stamp, name, node, message⟩ := row
    simp only [List.mem_cons, forall_eq_or_imp] at h
    obtain ⟨⟨t, ht, hf⟩, hrest⟩ := h
    obtain ⟨recs, hrecs, hmap⟩ := ih hrest
    refine ⟨⟨t, name, node, message⟩ :: recs, by simp [scanAll, ht, hrecs], ?_⟩
    simp [Record.tuple, hf, hmap]

/-- What the loop receives is in the byte order of the stored time stamp texts: when
the texts parse and format back, the layout texts of the records received are sorted by
`textLE`. -/
theorem Drains_sorted_by_text (L : TimeLib) (db : DB) (out : List (Record L))
    (hrt : ∀ row ∈ db.rows, ∃ t, L.Parse row.TimeStamp = .ok t ∧ L.Format t = row.TimeStamp)
    (h : Drains L (NewRecordReader L db) out) :
    (out.map (fun r => L.Format r.TimeStamp)).Pairwise (fun a b => textLE a b = true) := by
  have hperm := QueryOrdered_perm db
  have hrows : ∀ row ∈ db.QueryOrdered, ∃ t, L.Parse row.1 = .ok t ∧ L.Format t = row.1 := by
    intro row hrow
    obtain ⟨r, hr, rfl⟩ := List.mem_map.1 (hperm.mem_iff.1 hrow)
    exact hrt r hr
  obtain ⟨recs, hrecs, hmap⟩ := scanAll_of_round_trip L db.QueryOrdered hrows
  obtain ⟨recs1, hrecs1, hout1⟩ := Drains_eq h
  simp only [NewRecordReader, RecordReader.remaining, Bool.false_eq_true, if_false,
    List.nil_append] at hrecs1 hout1
  rw [hrecs] at hrecs1
  have hout : out = recs := by rw [hout1]; exact (Option.some.inj hrecs1).symm
  have hsorted := QueryOrdered_sorted db
  rw [← hmap, List.pairwise_map] at hsorted
  rw [hout, List.pairwise_map]
  exact hsorted

/-! ### Every schedule -/

/-- The ways a step of `read` goes: it closes the channel after the last row, it panics
on a row whose text does not parse, or it sends the record of the next row while fewer
than ten records wait. -/
theorem readStep_cases {L : TimeLib} {rr rr1 : RecordReader L} (h : readStep L rr = some rr1) :
    rr.panicked = false ∧ rr.closed = false ∧
    ((rr.cursor = [] ∧ rr1 = ⟨[], rr.buffer, true, false⟩) ∨
      (∃ stamp name node message rows err, rr.cursor = (stamp, name, node, message) :: rows ∧
        L.Parse stamp = .error err ∧ rr1.panicked = true) ∨
      (∃ stamp name node message rows dt, rr.cursor = (stamp, name, node, message) :: rows ∧
        L.Parse stamp = .ok dt ∧ rr.buffer.length < bufferSize ∧
        rr1 = ⟨rows, rr.buffer ++ [⟨dt, name, node, message⟩], false, false⟩)) := by
  obtain ⟨cursor, buffer, closed, panicked⟩ := rr
  cases panicked with
  | true => simp [readStep] at h
  | false =>
    cases closed with
    | true => simp [readStep] at h
    | false =>
      refine ⟨rfl, rfl, ?_⟩
      cases cursor with
      | nil =>
        simp only [readStep, Bool.false_eq_true, or_self, if_false, Option.some.injEq] at h
        exact Or.inl ⟨rfl, h.symm⟩
      | cons row rows =>
        obtain ⟨stamp, name, node, message⟩ := row
        simp only [readStep, Bool.false_eq_true, or_self, if_false] at h
        cases hparse : L.Parse stamp with
        | error err =>
          rw [hparse] at h
          simp only [Option.some.injEq] at h
          exact Or.inr (Or.inl ⟨stamp, name, node, message, rows, err, rfl, hparse, by rw [← h]⟩)
        | ok dt =>
          rw [hparse] at h
          by_cases hroom : buffer.length < bufferSize
          · simp only [hroom, if_true, Option.some.injEq] at h
            exact Or.inr (Or.inr ⟨stamp, name, node, message, rows, dt, rfl, hparse, hroom, h.symm⟩)
          · simp [hroom] at h

/-- The ways a call of `ReadRecord` returns: `nil, false` on an empty closed channel,
or the oldest record that waits and `true`. -/
theorem ReadRecord_cases {L : TimeLib} {rr rr1 : RecordReader L}
    {res : Option (Record L) × Bool} (h : rr.ReadRecord = some (res, rr1)) :
    rr.panicked = false ∧
    ((res = (none, false) ∧ rr.buffer = [] ∧ rr.closed = true ∧ rr1 = rr) ∨
      ∃ record rest, res = (some record, true) ∧ rr.buffer = record :: rest ∧
        rr1 = ⟨rr.cursor, rest, rr.closed, false⟩) := by
  obtain ⟨cursor, buffer, closed, panicked⟩ := rr
  cases panicked with
  | true => simp [RecordReader.ReadRecord] at h
  | false =>
    refine ⟨rfl, ?_⟩
    cases buffer with
    | nil =>
      cases closed with
      | true =>
        simp only [RecordReader.ReadRecord, Bool.false_eq_true, if_false, if_true,
          Option.some.injEq, Prod.mk.injEq] at h
        exact Or.inl ⟨h.1.symm, rfl, rfl, h.2.symm⟩
      | false => simp [RecordReader.ReadRecord] at h
    | cons b rest =>
      simp only [RecordReader.ReadRecord, Bool.false_eq_true, if_false, Option.some.injEq,
        Prod.mk.injEq] at h
      exact Or.inr ⟨b, rest, h.1.symm, rfl, h.2.symm⟩

/-- One state of the replay with all rows left parsing: some goroutine can move, a call
of `ReadRecord` answers as the records that wait and those of the rows left say, and
every move leaves fewer moves to make. -/
theorem Ends_step {L : TimeLib} (rr : RecordReader L) (recs : List (Record L))
    (hp : rr.panicked = false) (hs : scanAll L rr.remaining = some recs)
    (ih : ∀ (rr1 : RecordReader L) (recs1 : List (Record L)), movesLeft rr1 < movesLeft rr →
      rr1.panicked = false → scanAll L rr1.remaining = some recs1 →
      Ends L rr1 (rr1.buffer ++ recs1)) :
    Ends L rr (rr.buffer ++ recs) := by
  obtain ⟨cursor, buffer, closed, panicked⟩ := rr
  simp only at hp
  subst hp
  apply Ends.intro
  · -- some goroutine can move
    cases buffer with
    | cons b rest =>
      exact ⟨⟨cursor, rest, closed, false⟩, Or.inr ⟨(some b, true),
        by simp [RecordReader.ReadRecord]⟩⟩
    | nil =>
      cases closed with
      | true =>
        exact ⟨⟨cursor, [], true, false⟩, Or.inr ⟨(none, false),
          by simp [RecordReader.ReadRecord]⟩⟩
      | false =>
        cases cursor with
        | nil => exact ⟨⟨[], [], true, false⟩, Or.inl (by simp [readStep])⟩
        | cons row rows =>
          obtain ⟨stamp, name, node, message⟩ := row
          simp only [RecordReader.remaining, Bool.false_eq_true, if_false, scanAll] at hs
          cases hparse : L.Parse stamp with
          | error err => rw [hparse] at hs; simp at hs
          | ok dt =>
            exact ⟨⟨rows, [⟨dt, name, node, message⟩], false, false⟩,
              Or.inl (by simp [readStep, hparse, bufferSize])⟩
  · -- what a call of ReadRecord answers
    intro res rr1 h
    obtain ⟨_, ⟨hres, hb, hc, _⟩ | ⟨record, rest, hres, hb, _⟩⟩ := ReadRecord_cases h
    · simp only at hb hc
      subst hb hc
      simp only [RecordReader.remaining, if_true, scanAll, Option.some.injEq] at hs
      exact Or.inl ⟨hres, by simp [← hs]⟩
    · simp only at hb
      subst hb
      exact Or.inr ⟨record, hres, rfl⟩
  · -- after a record was received
    intro record rr1 h
    obtain ⟨_, ⟨hres, _⟩ | ⟨record1, rest, _, hb, hrr1⟩⟩ := ReadRecord_cases h
    · simp at hres
    · simp only at hb hrr1
      subst hb hrr1
      have := ih ⟨cursor, rest, closed, false⟩ recs
        (by simp only [movesLeft, List.length_cons]; omega) rfl hs
      simpa using this
  · -- after a step of read
    intro rr1 h
    obtain ⟨_, hc, ⟨hcur, hrr1⟩ | ⟨stamp, name, node, message, rows, err, hcur, hparse, _⟩ |
      ⟨stamp, name, node, message, rows, dt, hcur, hparse, _, hrr1⟩⟩ := readStep_cases h
    · simp only at hc hcur hrr1
      subst hc hcur hrr1
      simp only [RecordReader.remaining, Bool.false_eq_true, if_false, scanAll,
        Option.some.injEq] at hs
      have := ih ⟨[], buffer, true, false⟩ [] (by simp [movesLeft]) rfl
        (by simp [RecordReader.remaining, scanAll])
      rw [← hs]
      exact this
    · simp only at hc hcur
      subst hc hcur
      simp only [RecordReader.remaining, Bool.false_eq_true, if_false, scanAll, hparse] at hs
      simp at hs
    · simp only at hc hcur hrr1
      subst hc hcur hrr1
      simp only [RecordReader.remaining, Bool.false_eq_true, if_false, scanAll, hparse,
        Option.map_eq_some'] at hs
      obtain ⟨recs1, hs1, rfl⟩ := hs
      have := ih ⟨rows, buffer ++ [⟨dt, name, node, message⟩], false, false⟩ recs1
        (by
          simp only [movesLeft, List.length_append, List.length_cons, List.length_nil,
            Bool.false_eq_true, if_false]
          omega)
        rfl (by simpa [RecordReader.remaining] using hs1)
      simpa using this

/-- When every row that `read` still has to scan parses, the loop of `run` comes to its
end under every schedule of the two goroutines, and it receives the records that wait
followed by those of the rows left. -/
theorem Ends_of_scanAll {L : TimeLib} (rr : RecordReader L) (recs : List (Record L))
    (hp : rr.panicked = false) (hs : scanAll L rr.remaining = some recs) :
    Ends L rr (rr.buffer ++ recs) := by
  generalize hn : movesLeft rr = n
  induction n using Nat.strong_induction_on generalizing rr recs with
  | _ n ih =>
    apply Ends_step rr recs hp hs
    intro rr1 recs1 hlt hp1 hs1
    exact ih (movesLeft rr1) (by omega) rr1 recs1 hp1 hs1 rfl

/-- A loop that comes to its end under every schedule comes to its end under one. -/
theorem Ends_Drains {L : TimeLib} {rr : RecordReader L} {out : List (Record L)}
    (h : Ends L rr out) : Drains L rr out := by
  induction h with
  | @intro rr out hmove hread _ _ ihread ihstep =>
    cases hR : rr.ReadRecord with
    | some p =>
      obtain ⟨res, rr1⟩ := p
      rcases hread res rr1 hR with ⟨hres, hout⟩ | ⟨record, hres, hhead⟩
      · subst hres hout
        exact Drains.done hR
      · subst hres
        have hout : out = record :: out.tail := by
          cases out with
          | nil => simp at hhead
          | cons a t =>
            simp only [List.head?_cons, Option.some.injEq] at hhead
            simp [hhead]
        rw [hout]
        exact Drains.recv hR (ihread record rr1 hR)
    | none =>
      obtain ⟨rr1, hstep | ⟨res, hres⟩⟩ := hmove
      · exact Drains.step hstep (ihstep rr1 hstep)
      · rw [hR] at hres
        simp at hres

/-- One state of the replay with a row left that does not parse: the channel is open,
some goroutine can move, no call of `ReadRecord` answers `ok = false`, and every move
either is the panic of `read` or leaves fewer moves to make. -/
theorem Panics_step {L : TimeLib} (rr : RecordReader L)
    (hp : rr.panicked = false) (hs : scanAll L rr.remaining = none)
    (ih : ∀ rr1 : RecordReader L, movesLeft rr1 < movesLeft rr →
      rr1.panicked = false → scanAll L rr1.remaining = none → Panics L rr1) :
    Panics L rr := by
  obtain ⟨cursor, buffer, closed, panicked⟩ := rr
  simp only at hp
  subst hp
  have hc : closed = false := by
    cases closed with
    | false => rfl
    | true => simp [RecordReader.remaining, scanAll] at hs
  subst hc
  simp only [RecordReader.remaining, Bool.false_eq_true, if_false] at hs
  apply Panics.intro
  · cases buffer with
    | cons b rest =>
      exact ⟨⟨cursor, rest, false, false⟩, Or.inr ⟨(some b, true),
        by simp [RecordReader.ReadRecord]⟩⟩
    | nil =>
      cases cursor with
      | nil => simp [scanAll] at hs
      | cons row rows =>
        obtain ⟨stamp, name, node, message⟩ := row
        cases hparse : L.Parse stamp with
        | error err =>
          exact ⟨⟨(stamp, name, node, message) :: rows, [], false, true⟩,
            Or.inl (by simp [readStep, hparse])⟩
        | ok dt =>
          exact ⟨⟨rows, [⟨dt, name, node, message⟩], false, false⟩,
            Or.inl (by simp [readStep, hparse, bufferSize])⟩
  · intro res rr1 h
    obtain ⟨_, ⟨_, _, hcl, _⟩ | ⟨record, rest, hres, _, _⟩⟩ := ReadRecord_cases h
    · simp at hcl
    · exact ⟨record, hres⟩
  · intro rr1 hmove hp1
    rcases hmove with h | ⟨res, h⟩
    · obtain ⟨_, _, ⟨hcur, _⟩ | ⟨stamp, name, node, message, rows, err, _, _, hpan⟩ |
        ⟨stamp, name, node, message, rows, dt, hcur, hparse, _, hrr1⟩⟩ := readStep_cases h
      · simp only at hcur
        subst hcur
        simp [scanAll] at hs
      · rw [hpan] at hp1
        simp at hp1
      · simp only at hcur hrr1
        subst hcur hrr1
        have hs1 : scanAll L rows = none := by
          simp only [scanAll, hparse, Option.map_eq_none'] at hs
          exact hs
        exact ih _
          (by
            simp only [movesLeft, List.length_append, List.length_cons, List.length_nil,
              Bool.false_eq_true, if_false]
            omega)
          rfl (by simpa [RecordReader.remaining] using hs1)
    · obtain ⟨_, ⟨_, _, hcl, _⟩ | ⟨record, rest, _, hb, hrr1⟩⟩ := ReadRecord_cases h
      · simp at hcl
      · simp only at hb hrr1
        subst hb hrr1
        exact ih _ (by simp only [movesLeft, List.length_cons]; omega) rfl
          (by simpa [RecordReader.remaining] using hs)

/-- When some row that `read` still has to scan does not parse, `read` reaches
`log.Panic` under every schedule of the two goroutines, and no call of `ReadRecord`
answers `ok = false` before. -/
theorem Panics_of_scanAll {L : TimeLib} (rr : RecordReader L)
    (hp : rr.panicked = false) (hs : scanAll L rr.remaining = none) : Panics L rr := by
  generalize hn : movesLeft rr = n
  induction n using Nat.strong_induction_on generalizing rr with
  | _ n ih =>
    apply Panics_step rr hp hs
    intro rr1 hlt hp1 hs1
    exact ih (movesLeft rr1) (by omega) rr1 hp1 hs1 rfl

/-- A row whose time stamp text does not parse keeps `read` from getting through the
rows. -/
theorem scanAll_none_of_error (L : TimeLib)
    (rows : List (GoString × GoString × GoString × GoString))
    (h : ∃ row ∈ rows, ∃ err, L.Parse row.1 = .error err) : scanAll L rows = none := by
  induction rows with
  | nil => simp at h
  | cons row rows ih =>
    obtain ⟨stamp, name, node, message⟩ := row
    cases hparse : L.Parse stamp with
    | error err => simp [scanAll, hparse]
    | ok dt =>
      obtain ⟨row1, hmem, err, herr⟩ := h
      simp only [List.mem_cons] at hmem
      rcases hmem with rfl | hmem
      · simp only at herr
        rw [hparse] at herr
        cases herr
      · simp [scanAll, hparse, ih ⟨row1, hmem, err, herr⟩]

/-- C6: when every stored time stamp text parses under the layout to a time that
formats back to the same text, draining a `RecordReader` yields every stored record
exactly once and nothing else: under every schedule of the two goroutines the loop that
calls `ReadRecord` until `ok = false` comes to its end, having received the same list
of records, and the tuples (time stamp text, name, node, message) of these records are
a permutation of the rows of the store.  When the text of some stored row does not
parse, then under every schedule `read` reaches `log.Panic` and no call of `ReadRecord`
answers `ok = false`: no run of the loop comes to its end. -/
theorem C6_drain_yields_every_row_once (L : TimeLib) (db : DB) :
    ((∀ row ∈ db.rows, ∃ t, L.Parse row.TimeStamp = .ok t ∧ L.Format t = row.TimeStamp) →
      ∃ out, Ends L (NewRecordReader L db) out ∧
        drain L (2 * db.rows.length + 2) (NewRecordReader L db) = some out ∧
        Drains L (NewRecordReader L db) out ∧
        (out.map Record.tuple).Perm (db.rows.map Row.tuple) ∧
        ∀ out1, Drains L (NewRecordReader L db) out1 → out1 = out) ∧
    ((∃ row ∈ db.rows, ∃ err, L.Parse row.TimeStamp = .error err) →
      Panics L (NewRecordReader L db) ∧
        (¬ ∃ out, Drains L (NewRecordReader L db) out) ∧
        (¬ ∃ out, Ends L (NewRecordReader L db) out) ∧
        ∀ fuel, drain L fuel (NewRecordReader L db) = none) := by
  have hperm := QueryOrdered_perm db
  constructor
  · intro hrt
    have hrows : ∀ row ∈ db.QueryOrdered, ∃ t, L.Parse row.1 = .ok t ∧ L.Format t = row.1 := by
      intro row hrow
      obtain ⟨r, hr, rfl⟩ := List.mem_map.1 (hperm.mem_iff.1 hrow)
      exact hrt r hr
    obtain ⟨recs, hrecs, hmap⟩ := scanAll_of_round_trip L db.QueryOrdered hrows
    have hlen : db.QueryOrdered.length = db.rows.length := by
      rw [hperm.length_eq, List.length_map]
    have hdrain : drain L (2 * db.rows.length + 2) (NewRecordReader L db) = some recs := by
      have := drain_eq L (2 * db.rows.length + 2) (NewRecordReader L db) recs rfl
        (by simpa [NewRecordReader, RecordReader.remaining] using hrecs)
        (by simp only [NewRecordReader, List.length_nil, Bool.false_eq_true, if_false, hlen]; omega)
      simpa [NewRecordReader] using this
    have hends : Ends L (NewRecordReader L db) recs := by
      have := Ends_of_scanAll (NewRecordReader L db) recs rfl
        (by simpa [NewRecordReader, RecordReader.remaining] using hrecs)
      simpa [NewRecordReader] using this
    refine ⟨recs, hends, hdrain, drain_Drains L _ _ _ hdrain, by rw [hmap]; exact hperm, ?_⟩
    intro out1 h1
    obtain ⟨recs1, hrecs1, hout1⟩ := Drains_eq h1
    simp only [NewRecordReader, RecordReader.remaining, Bool.false_eq_true, if_false,
      List.nil_append] at hrecs1 hout1
    rw [hrecs] at hrecs1
    rw [hout1]
    exact (Option.some.inj hrecs1).symm
  · rintro ⟨row, hrow, err, herr⟩
    have hbad : ∃ r ∈ db.QueryOrdered, ∃ err, L.Parse r.1 = .error err :=
      ⟨row.tuple, hperm.mem_iff.2 (List.mem_map.2 ⟨row, hrow, rfl⟩), err, herr⟩
    have hnone : scanAll L (NewRecordReader L db).remaining = none := by
      simpa [NewRecordReader, RecordReader.remaining] using
        scanAll_none_of_error L db.QueryOrdered hbad
    have hno : ¬ ∃ out, Drains L (NewRecordReader L db) out := by
      rintro ⟨out, h⟩
      obtain ⟨recs, hrecs, _⟩ := Drains_eq h
      rw [hnone] at hrecs
      cases hrecs
    refine ⟨Panics_of_scanAll (NewRecordReader L db) rfl hnone, hno, ?_, ?_⟩
    · rintro ⟨out, h⟩
      exact hno ⟨out, Ends_Drains h⟩
    · intro fuel
      cases hd : drain L fuel (NewRecordReader L db) with
      | none => rfl
      | some out => exact absurd ⟨out, drain_Drains L fuel _ out hd⟩ hno

/-! ## The program on concrete inputs -/

theorem NewRecord_helloLine : NewRecord utcLib helloLine = some (some helloRecord, none) := rfl

theorem NewRecord_firstLine : NewRecord cetLib firstLine = some (some firstRecord, none) := rfl

theorem NewRecord_secondLine : NewRecord cetLib secondLine = some (some secondRecord, none) :=
  rfl

theorem NewRecord_lastLine : NewRecord cetLib lastLine = some (some lastRecord, none) := rfl

/-- C5 on a machine in Central Europe, for two lines stamped 00:30 UTC and 01:10 UTC of
the night the clocks go back: `NewRecord` makes a record of each, the first earlier than
the second, and the loop that drains the `RecordReader` receives, under every schedule,
the later record first and the earlier record second. -/
theorem C5_replay_out_of_order_when_clocks_go_back :
    NewRecord cetLib firstLine = some (some firstRecord, none) ∧
    NewRecord cetLib secondLine = some (some secondRecord, none) ∧
    cetLib.Unix firstRecord.TimeStamp < cetLib.Unix secondRecord.TimeStamp ∧
    (addAll cetLib Open [firstRecord, secondRecord]).1 = [(1, false, none), (2, false, none)] ∧
    ∃ out,
      drain cetLib 6 (NewRecordReader cetLib (addAll cetLib Open [firstRecord, secondRecord]).2)
        = some out ∧
      (∀ out1,
        Drains cetLib (NewRecordReader cetLib (addAll cetLib Open [firstRecord, secondRecord]).2)
          out1 → out1 = out) ∧
      out.map (fun r => r.Message) = ["second".toList, "first".toList] ∧
      out.map (fun r => cetLib.Unix r.TimeStamp) = [1698541800, 1698539400] := by
  refine ⟨rfl, rfl, by decide, rfl, [secondRecord, firstRecord], rfl, ?_, rfl, rfl⟩
  intro out1 h1
  obtain ⟨recs, hrecs, hout⟩ := Drains_eq h1
  have hscan : scanAll cetLib
      (NewRecordReader cetLib (addAll cetLib Open [firstRecord, secondRecord]).2).remaining =
      some [secondRecord, firstRecord] := rfl
  rw [hscan] at hrecs
  rw [hout, ← Option.some.inj hrecs]
  rfl

/-- C6 fails in two ways on a machine in Central Europe.  The line stamped one second
before the year 10000 is made a record and stored, and then no schedule lets the loop
that drains the `RecordReader` come to its end: `read` panics on the stored text.  And
for a record whose time is in a fixed zone named CET in June, the loop comes to its end
with a record whose tuple is not the stored one. -/
theorem C6_drain_panics_or_changes_the_time_stamp :
    (NewRecord cetLib lastLine = some (some lastRecord, none) ∧
      (addAll cetLib Open [lastRecord]).1 = [(1, false, none)] ∧
      ¬ ∃ out, Drains cetLib (NewRecordReader cetLib (addAll cetLib Open [lastRecord]).2) out) ∧
    (∃ out,
      Drains cetLib (NewRecordReader cetLib (addAll cetLib Open [fixedZoneRecord]).2) out ∧
      ¬ (out.map Record.tuple).Perm
          ((addAll cetLib Open [fixedZoneRecord]).2.rows.map Row.tuple)) := by
  refine ⟨⟨rfl, rfl, ?_⟩, ?_⟩
  · rintro ⟨out, h⟩
    obtain ⟨recs, hrecs, _⟩ := Drains_eq h
    have hscan : scanAll cetLib
        (NewRecordReader cetLib (addAll cetLib Open [lastRecord]).2).remaining = none := rfl
    rw [hscan] at hrecs
    simp at hrecs
  · refine ⟨[⟨⟨1686835822, "CEST".toList, 7200⟩, "a".toList, "b".toList, "x".toList⟩],
      drain_Drains cetLib 4 _ _ rfl, ?_⟩
    have hrows : (addAll cetLib Open [fixedZoneRecord]).2.rows.map Row.tuple =
        [("20230615 143022 CET".toList, "a".toList, "b".toList, "x".toList)] := rfl
    have hout : List.map Record.tuple
        [(⟨⟨1686835822, "CEST".toList, 7200⟩, "a".toList, "b".toList, "x".toList⟩ :
          Record cetLib)] =
        [("20230615 153022 CEST".toList, "a".toList, "b".toList, "x".toList)] := rfl
    rw [hrows, hout, List.perm_singleton]
    decide

/-- C1 at the records of the scenario: with `hello` stored, `Add` of the record with the
same time stamp, name and node and the message `world` reports no duplicate and appends
a row, and `Add` of the `hello` record again reports a duplicate. -/
theorem C1_witness :
    ((addAll utcLib Open [helloRecord]).2.Add utcLib worldRecord).1 = (2, false, none) ∧
    ((addAll utcLib Open [helloRecord]).2.Add utcLib helloRecord).1 = (1, true, none) ∧
    (∃ id, ((addAll utcLib Open [helloRecord]).2.Add utcLib worldRecord).2.rows =
      (addAll utcLib Open [helloRecord]).2.rows ++
        [⟨id, "20230615 143022 UTC".toList, "svcA".toList, "n1".toList, "world".toList⟩]) :=
  ⟨rfl, rfl,
    ((C1_add_reports_duplicate_iff_tuple_stored utcLib (addAll utcLib Open [helloRecord]).2
      worldRecord).2 (by decide)).2 rfl⟩

/-- C2 at a run of four calls: the scenario's record twice, a record that differs in
the message only, and a record of another publisher. -/
theorem C2_witness :
    (∀ res ∈ (addAll utcLib Open [helloRecord, worldRecord, helloRecord, earlyRecord]).1,
      res.2.2 = none) ∧
    (addAll utcLib Open [helloRecord, worldRecord, helloRecord, earlyRecord]).2.rows.length = 3 ∧
    ((∀ r ∈ [helloRecord, worldRecord, helloRecord, earlyRecord],
        ∃ row ∈ (addAll utcLib Open [helloRecord, worldRecord, helloRecord, earlyRecord]).2.rows,
          row.tuple = r.tuple) ∧
      (∀ row ∈ (addAll utcLib Open [helloRecord, worldRecord, helloRecord, earlyRecord]).2.rows,
        ∃ r ∈ [helloRecord, worldRecord, helloRecord, earlyRecord], r.tuple = row.tuple) ∧
      ((addAll utcLib Open [helloRecord, worldRecord, helloRecord, earlyRecord]).2.rows.map
        Row.tuple).Nodup) :=
  ⟨by decide, rfl,
    C2_store_holds_exactly_the_distinct_tuples utcLib
      [helloRecord, worldRecord, helloRecord, earlyRecord] (by decide)⟩

/-- C3 at a run in which the scenario's record is added three times among two other
records. -/
theorem C3_witness :
    (addAll utcLib Open [earlyRecord, helloRecord, worldRecord, helloRecord, helloRecord]).1 =
      [(1, false, none), (2, false, none), (3, false, none), (2, true, none), (2, true, none)] ∧
    ((addAll utcLib Open
        [earlyRecord, helloRecord, worldRecord, helloRecord, helloRecord]).2.rows.countP
          (fun row => decide (row.tuple = helloRecord.tuple)) = 1 ∧
      ([earlyRecord, helloRecord, worldRecord, helloRecord, helloRecord].zip
        (addAll utcLib Open
          [earlyRecord, helloRecord, worldRecord, helloRecord, helloRecord]).1).countP
          (fun p => decide (p.1.tuple = helloRecord.tuple) && p.2.2.1) = 3 - 1 ∧
      (∀ pre r post,
        [earlyRecord, helloRecord, worldRecord, helloRecord, helloRecord] = pre ++ r :: post →
        r.tuple = helloRecord.tuple → (∀ x ∈ pre, x.tuple ≠ helloRecord.tuple) →
        ∃ id, (addAll utcLib Open
          [earlyRecord, helloRecord, worldRecord, helloRecord, helloRecord]).1[pre.length]? =
            some (id, false, none))) :=
  ⟨rfl,
    C3_same_tuple_n_times_one_row utcLib
      [earlyRecord, helloRecord, worldRecord, helloRecord, helloRecord] helloRecord.tuple 3
      (by decide) (by decide) (by decide)⟩

/-- C4 at the two records that differ in the message only, added in the other order. -/
theorem C4_witness :
    (addAll utcLib Open [worldRecord, helloRecord]).1 = [(1, false, none), (2, false, none)] ∧
    ((addAll utcLib Open [worldRecord, helloRecord]).2.rows.length =
        [helloRecord, worldRecord].length ∧
      (addAll utcLib Open [worldRecord, helloRecord]).1.length =
        [helloRecord, worldRecord].length ∧
      ∀ res ∈ (addAll utcLib Open [worldRecord, helloRecord]).1,
        res.2.1 = false ∧ res.2.2 = none) :=
  ⟨rfl,
    C4_different_messages_all_stored utcLib [helloRecord, worldRecord]
      [worldRecord, helloRecord] "20230615 143022 UTC".toList "svcA".toList "n1".toList
      (by decide) (by decide) (by decide) (List.Perm.swap _ _ _)⟩

/-- C7 at the scenario: the record of `helloLine` added twice to the empty store
returns `(1, false, nil)` and then `(1, true, nil)`. -/
theorem C7_witness :
    (addAll utcLib Open [helloRecord, helloRecord]).1 = [(1, false, none), (1, true, none)] ∧
    ∃ id, (addAll utcLib Open [helloRecord, helloRecord]).1 =
      [(id, false, none), (id, true, none)] :=
  ⟨rfl,
    (C7_add_returns_identity_of_matching_row utcLib).2.2.2 Open helloRecord
      (not_Holds_Open _) (by decide)⟩

/-- C6 at the store of the scenario's records: the stored texts parse and format back,
and the loop receives the three records, the earliest first. -/
theorem C6_witness :
    (∀ row ∈ (addAll utcLib Open [helloRecord, worldRecord, earlyRecord]).2.rows,
      ∃ t, utcLib.Parse row.TimeStamp = .ok t ∧ utcLib.Format t = row.TimeStamp) ∧
    drain utcLib 8 (NewRecordReader utcLib (addAll utcLib Open
      [helloRecord, worldRecord, earlyRecord]).2) =
        some [earlyRecord, helloRecord, worldRecord] ∧
    ∃ out,
      Ends utcLib
        (NewRecordReader utcLib (addAll utcLib Open [helloRecord, worldRecord, earlyRecord]).2)
        out ∧
      drain utcLib
        (2 * (addAll utcLib Open [helloRecord, worldRecord, earlyRecord]).2.rows.length + 2)
        (NewRecordReader utcLib (addAll utcLib Open [helloRecord, worldRecord, earlyRecord]).2) =
          some out ∧
      Drains utcLib
        (NewRecordReader utcLib (addAll utcLib Open [helloRecord, worldRecord, earlyRecord]).2)
        out ∧
      (out.map Record.tuple).Perm
        ((addAll utcLib Open [helloRecord, worldRecord, earlyRecord]).2.rows.map Row.tuple) ∧
      ∀ out1,
        Drains utcLib
          (NewRecordReader utcLib (addAll utcLib Open [helloRecord, worldRecord, earlyRecord]).2)
          out1 → out1 = out :=
  have hrows : ∀ row ∈ (addAll utcLib Open [helloRecord, worldRecord, earlyRecord]).2.rows,
      ∃ t, utcLib.Parse row.TimeStamp = .ok t ∧ utcLib.Format t = row.TimeStamp := by
    intro row hrow
    have hmem : row ∈ [(⟨1, "20230615 143022 UTC".toList, "svcA".toList, "n1".toList,
        "hello".toList⟩ : Row),
        ⟨2, "20230615 143022 UTC".toList, "svcA".toList, "n1".toList, "world".toList⟩,
        ⟨3, "20230615 133022 UTC".toList, "svcB".toList, "n2".toList, "hello".toList⟩] := hrow
    simp only [List.mem_cons, List.mem_singleton, List.not_mem_nil, or_false] at hmem
    rcases hmem with rfl | rfl | rfl
    · exact ⟨⟨1686839422, "UTC".toList, 0⟩, rfl, rfl⟩
    · exact ⟨⟨1686839422, "UTC".toList, 0⟩, rfl, rfl⟩
    · exact ⟨⟨1686835822, "UTC".toList, 0⟩, rfl, rfl⟩
  ⟨hrows, rfl,
    (C6_drain_yields_every_row_once utcLib
      (addAll utcLib Open [helloRecord, worldRecord, earlyRecord]).2).1 hrows⟩

/-- C8 at a line whose message holds further `|`. -/
theorem C8_witness :
    NewRecord utcLib "20230615-Thu-143022-UTC|svcA_n1|a|b||c|".toList =
      some (some ⟨⟨1686839422, "UTC".toList, 0⟩, "svcA".toList, "n1".toList,
        "a|b||c|".toList⟩, none) ∧
    ∀ when who rest, '|' ∉ when → '|' ∉ who →
      "20230615-Thu-143022-UTC|svcA_n1|a|b||c|".toList = when ++ ['|'] ++ who ++ ['|'] ++ rest →
      "a|b||c|".toList = rest :=
  ⟨rfl,
    (C8_message_is_text_after_second_pipe utcLib "20230615-Thu-143022-UTC|svcA_n1|a|b||c|".toList
      ⟨⟨1686839422, "UTC".toList, 0⟩, "svcA".toList, "n1".toList, "a|b||c|".toList⟩ none
      rfl).2⟩

/-- C9 at the line of the scenario: name `svcA`, node `n1`, message `hello`. -/
theorem C9_witness :
    NewRecord utcLib helloLine = some (some helloRecord, none) ∧
    helloRecord.Name = "svcA".toList ∧ helloRecord.Node = "n1".toList ∧
    helloRecord.Message = "hello".toList ∧
    helloRecord.Name ++ ['_'] ++ helloRecord.Node ++ ['|'] ++ helloRecord.Message =
      "svcA_n1|hello".toList ∧
    helloRecord.Name ++ ['_'] ++ helloRecord.Node ++ ['|'] ++ helloRecord.Message =
      helloLine.drop 24 :=
  ⟨rfl, rfl, rfl, rfl, rfl,
    (C9_name_node_message_round_trip utcLib helloLine helloRecord none rfl).1⟩

/-- C10 at the line `not a valid line` (one field) and at lines whose first field is
22 and 24 bytes long. -/
theorem C10_witness :
    NewRecord utcLib "not a valid line".toList = some (none, none) ∧
    NewRecord utcLib "2023061-Thu-143022-UTC|svcA_n1|hello".toList = some (none, none) ∧
    NewRecord utcLib "20230615-Thu-143022-UTCX|svcA_n1|hello".toList = some (none, none) :=
  ⟨C10_malformed_line_is_not_a_record utcLib "not a valid line".toList (Or.inl (by decide)),
    C10_malformed_line_is_not_a_record utcLib "2023061-Thu-143022-UTC|svcA_n1|hello".toList
      (Or.inr (by decide)),
    C10_malformed_line_is_not_a_record utcLib "20230615-Thu-143022-UTCX|svcA_n1|hello".toList
      (Or.inr (by decide))⟩

/-! ## The parser: errors and lines that are not records -/

/-- A line of at least three fields, cut into its first field, its second field and
the text after the second separator, with the fields `strings.Split` returns. -/
theorem Split_fields (input : GoString) (h : 3 ≤ (Split input '|').length) :
    ∃ when who rest, '|' ∉ when ∧ '|' ∉ who ∧ input = when ++ '|' :: (who ++ '|' :: rest) ∧
      Split input '|' = when :: who :: Split rest '|' := by
  obtain ⟨when, who, rest, h1, h2, hin⟩ := (Split_three input '|').1 h
  refine ⟨when, who, rest, h1, h2, hin, ?_⟩
  rw [hin, Split_append_sep _ _ _ h1, Split_append_sep _ _ _ h2]

/-- The three answers of `NewRecord` that hold no record, for a line of at least three
fields: not a record for a first field that is not 23 bytes long, the error of
`time.Parse` when the layout text of the first field does not parse, and not a record
when it parses and the second field has no underscore. -/
theorem NewRecord_no_record (L : TimeLib) (when who rest : GoString)
    (h1 : '|' ∉ when) (h2 : '|' ∉ who) :
    (when.length ≠ 23 → NewRecord L (when ++ '|' :: (who ++ '|' :: rest)) = some (none, none)) ∧
    (∀ err, when.length = 23 → L.Parse (layoutText when) = .error err →
      NewRecord L (when ++ '|' :: (who ++ '|' :: rest)) = some (none, some err)) ∧
    (∀ t, when.length = 23 → L.Parse (layoutText when) = .ok t → '_' ∉ who →
      NewRecord L (when ++ '|' :: (who ++ '|' :: rest)) = some (none, none)) := by
  rw [NewRecord_of_fields L when who rest h1 h2]
  refine ⟨fun h => by simp [h], fun err h hp => by simp [h, hp], fun t h hp hw => ?_⟩
  simp [h, hp, (indexByte?_eq_none who '_').2 hw]

/-- C11: for every input line whose second field contains no `_`, `NewRecord` returns
`nil, nil` (not a record) unless the line has at least three fields, its first field is
23 bytes long and the layout text of that field does not parse; in that case
`NewRecord` returns the error of `time.Parse`, since it parses the time stamp before it
looks for the `_`. -/
theorem C11_no_underscore_is_not_a_record_unless_time_fails (L : TimeLib) (input who : GoString)
    (hwho : (Split input '|')[1]? = some who) (hno : '_' ∉ who) :
    ((3 ≤ (Split input '|').length ∧ ((Split input '|').headD []).length = 23 ∧
        ∃ err, L.Parse (layoutText ((Split input '|').headD [])) = .error err) →
      ∃ err, L.Parse (layoutText ((Split input '|').headD [])) = .error err ∧
        NewRecord L input = some (none, some err)) ∧
    (¬ (3 ≤ (Split input '|').length ∧ ((Split input '|').headD []).length = 23 ∧
        ∃ err, L.Parse (layoutText ((Split input '|').headD [])) = .error err) →
      NewRecord L input = some (none, none)) := by
  by_cases hlen : (Split input '|').length < 3
  · refine ⟨fun h => by omega, fun _ => NewRecord_of_few_fields L input hlen⟩
  · obtain ⟨when, who1, rest, h1, h2, hin, hsplit⟩ := Split_fields input (by omega)
    rw [hsplit] at hwho ⊢
    simp only [List.getElem?_cons_succ, List.getElem?_cons_zero, Option.some.injEq] at hwho
    subst hwho
    simp only [List.headD_cons]
    obtain ⟨hA, hB, hC⟩ := NewRecord_no_record L when who1 rest h1 h2
    rw [hin]
    constructor
    · rintro ⟨_, h23, err, herr⟩
      exact ⟨err, herr, hB err h23 herr⟩
    · intro hnot
      by_cases h23 : when.length = 23
      · cases hp : L.Parse (layoutText when) with
        | error err =>
          exact absurd ⟨by rw [← hsplit]; omega, h23, err, hp⟩ hnot
        | ok t => exact hC t h23 hp hno
      · exact hA h23

/-- C12: `NewRecord` returns an error exactly when the line splits into at least three
fields, its first field is 23 bytes long and the layout text of that field (its bytes
0-7, 13-18 and 20-22) fails to parse; the error is that of `time.Parse` and comes with
no record, and in every other case `NewRecord` returns with a nil error. -/
theorem C12_error_iff_time_stamp_fails_to_parse (L : TimeLib) (input : GoString) :
    ((∃ err, NewRecord L input = some (none, some err)) ↔
      (3 ≤ (Split input '|').length ∧ ((Split input '|').headD []).length = 23 ∧
        ∃ err, L.Parse (layoutText ((Split input '|').headD [])) = .error err)) ∧
    (∀ rec err, NewRecord L input = some (rec, some err) →
      rec = none ∧ L.Parse (layoutText ((Split input '|').headD [])) = .error err) ∧
    (¬ (3 ≤ (Split input '|').length ∧ ((Split input '|').headD []).length = 23 ∧
        ∃ err, L.Parse (layoutText ((Split input '|').headD [])) = .error err) →
      ∃ rec, NewRecord L input = some (rec, none)) := by
  by_cases hlen : (Split input '|').length < 3
  · have hN := NewRecord_of_few_fields L input hlen
    refine ⟨⟨?_, fun h => by omega⟩, ?_, fun _ => ⟨none, hN⟩⟩
    · rintro ⟨err, h⟩
      rw [hN] at h
      simp at h
    · intro rec err h
      rw [hN] at h
      simp at h
  · obtain ⟨when, who, rest, h1, h2, hin, hsplit⟩ := Split_fields input (by omega)
    have h3 : 3 ≤ (Split input '|').length := by omega
    rw [hsplit] at h3 ⊢
    simp only [List.headD_cons]
    have hform := NewRecord_of_fields L when who rest h1 h2
    rw [← hin] at hform
    by_cases h23 : when.length = 23
    · cases hp : L.Parse (layoutText when) with
      | error err0 =>
        have hN : NewRecord L input = some (none, some err0) := by
          rw [hform]; simp [h23, hp]
        refine ⟨⟨fun _ => ⟨h3, h23, err0, rfl⟩, fun _ => ⟨err0, hN⟩⟩, ?_, ?_⟩
        · intro rec err h
          rw [hN] at h
          simp only [Option.some.injEq, Prod.mk.injEq] at h
          exact ⟨h.1.symm, by rw [h.2]⟩
        · intro hnot
          exact absurd ⟨h3, h23, err0, rfl⟩ hnot
      | ok t =>
        have hN : ∃ rec, NewRecord L input = some (rec, none) := by
          rw [hform]
          cases hi : indexByte? who '_' <;> simp [h23, hp]
        obtain ⟨rec0, hN0⟩ := hN
        refine ⟨⟨?_, ?_⟩, ?_, fun _ => ⟨rec0, hN0⟩⟩
        · rintro ⟨err, h⟩
          rw [hN0] at h
          simp at h
        · rintro ⟨_, _, err, h⟩
          simp at h
        · intro rec err h
          rw [hN0] at h
          simp at h
    · have hN : NewRecord L input = some (none, none) := by
        rw [hform]; simp [h23]
      refine ⟨⟨?_, fun h => absurd h.2.1 h23⟩, ?_, fun _ => ⟨none, hN⟩⟩
      · rintro ⟨err, h⟩
        rw [hN] at h
        simp at h
      · intro rec err h
        rw [hN] at h
        simp at h

/-! ## The merge driver: unformatted lines -/

/-- What `strings.Trim` cuts off: the text is a run of cutset bytes, the trimmed text,
and a run of cutset bytes. -/
theorem Trim_decomp (s cutset : GoString) :
    ∃ lead trail, s = lead ++ Trim s cutset ++ trail ∧ (∀ c ∈ lead, c ∈ cutset) ∧
      (∀ c ∈ trail, c ∈ cutset) ∧ s.dropWhile (fun c => decide (c ∈ cutset)) =
        Trim s cutset ++ trail := by
  have hu : s.dropWhile (fun c => decide (c ∈ cutset)) = Trim s cutset ++
      ((s.dropWhile (fun c => decide (c ∈ cutset))).reverse.takeWhile
        (fun c => decide (c ∈ cutset))).reverse := by
    rw [Trim, ← List.reverse_append, List.takeWhile_append_dropWhile, List.reverse_reverse]
  refine ⟨s.takeWhile (fun c => decide (c ∈ cutset)), _, ?_, ?_, ?_, hu⟩
  · rw [List.append_assoc, ← hu, List.takeWhile_append_dropWhile]
  · intro c hc
    simpa using List.mem_takeWhile_imp hc
  · intro c hc
    rw [List.mem_reverse] at hc
    simpa using List.mem_takeWhile_imp hc

/-- The trimmed text neither begins nor ends with a byte of the cutset. -/
theorem Trim_ends (s cutset : GoString) :
    (∀ c, (Trim s cutset).head? = some c → c ∉ cutset) ∧
      (∀ c, (Trim s cutset).getLast? = some c → c ∉ cutset) := by
  constructor
  · intro c hc
    obtain ⟨lead, trail, _, _, _, hu⟩ := Trim_decomp s cutset
    cases ht : Trim s cutset with
    | nil => rw [ht] at hc; simp at hc
    | cons a t =>
      rw [ht] at hc hu
      simp only [List.head?_cons, Option.some.injEq] at hc
      have h := List.head?_dropWhile_not (fun c => decide (c ∈ cutset)) s
      rw [hu] at h
      simp only [List.cons_append, List.head?_cons, decide_eq_false_iff_not] at h
      exact hc ▸ h
  · intro c hc
    have h := List.head?_dropWhile_not (fun c => decide (c ∈ cutset))
      (s.dropWhile (fun c => decide (c ∈ cutset))).reverse
    rw [Trim, List.getLast?_reverse] at hc
    rw [hc] at h
    simpa using h

/-- A text that neither begins nor ends with a byte of the cutset is left as it is. -/
theorem Trim_eq_self (s cutset : GoString) (hhead : ∀ c, s.head? = some c → c ∉ cutset)
    (hlast : ∀ c, s.getLast? = some c → c ∉ cutset) : Trim s cutset = s := by
  have h1 : s.dropWhile (fun c => decide (c ∈ cutset)) = s := by
    cases s with
    | nil => rfl
    | cons a t =>
      have := hhead a rfl
      simp [List.dropWhile, this]
  have h2 : s.reverse.dropWhile (fun c => decide (c ∈ cutset)) = s.reverse := by
    cases hr : s.reverse with
    | nil => rfl
    | cons a t =>
      have hl : s.getLast? = some a := by
        rw [← List.head?_reverse, hr]
        rfl
      have := hlast a hl
      simp [List.dropWhile, this]
  rw [Trim, h1, h2, List.reverse_reverse]

theorem writeRaw_append (raw : List GoString) (line : GoString) :
    writeRaw (raw ++ [line]) = writeRaw raw ++ line ++ "\n\n".toList := by
  induction raw with
  | nil => simp [writeRaw, write]
  | cons a raw ih => simp [writeRaw, write, ih]

/-- C13: a line whose text without leading and trailing spaces and tabs is not empty
and is classified by `NewRecord` as not a record is kept in `raw`, and written to the
output followed by a blank line, without those leading and trailing spaces and tabs:
character for character as read when it has none.  A line that is empty once trimmed
is dropped. -/
theorem C13_unformatted_line_is_kept_trimmed (L : TimeLib) (env : Env) (line : GoString)
    (hne : Trim line " \t".toList ≠ [])
    (hnot : NewRecord L (Trim line " \t".toList) = some (none, none)) :
    readLine L env line = some { env with raw := env.raw ++ [Trim line " \t".toList] } ∧
    writeRaw (env.raw ++ [Trim line " \t".toList]) =
      writeRaw env.raw ++ Trim line " \t".toList ++ "\n\n".toList ∧
    (∃ lead trail, line = lead ++ Trim line " \t".toList ++ trail ∧
      (∀ c ∈ lead, c = ' ' ∨ c = '\t') ∧ (∀ c ∈ trail, c = ' ' ∨ c = '\t')) ∧
    ((∀ c, (Trim line " \t".toList).head? = some c → c ≠ ' ' ∧ c ≠ '\t') ∧
      (∀ c, (Trim line " \t".toList).getLast? = some c → c ≠ ' ' ∧ c ≠ '\t')) ∧
    ((∀ c, line.head? = some c → c ≠ ' ' ∧ c ≠ '\t') →
      (∀ c, line.getLast? = some c → c ≠ ' ' ∧ c ≠ '\t') → Trim line " \t".toList = line) ∧
    (∀ blank : GoString, Trim blank " \t".toList = [] → readLine L env blank = some env) := by
  have hcut : ∀ c : Char, c ∈ " \t".toList ↔ (c = ' ' ∨ c = '\t') := by
    intro c
    simp [String.toList]
  have hlen : 0 < (Trim line " \t".toList).length := List.length_pos.2 hne
  refine ⟨?_, writeRaw_append _ _, ?_, ⟨?_, ?_⟩, ?_, ?_⟩
  · simp only [readLine, gt_iff_lt, hlen, ↓reduceIte, hnot]
  · obtain ⟨lead, trail, h1, h2, h3, _⟩ := Trim_decomp line " \t".toList
    exact ⟨lead, trail, h1, fun c hc => (hcut c).1 (h2 c hc), fun c hc => (hcut c).1 (h3 c hc)⟩
  · intro c hc
    have := (Trim_ends line " \t".toList).1 c hc
    rw [hcut] at this
    tauto
  · intro c hc
    have := (Trim_ends line " \t".toList).2 c hc
    rw [hcut] at this
    tauto
  · intro hhead hlast
    apply Trim_eq_self
    · intro c hc
      rw [hcut]
      have := hhead c hc
      tauto
    · intro c hc
      rw [hcut]
      have := hlast c hc
      tauto
  · intro blank hblank
    simp only [readLine, hblank, List.length_nil, gt_iff_lt, lt_self_iff_false, ↓reduceIte]

/-! ## The merge driver: the consolidated file -/

theorem readLine_raw (L : TimeLib) (env env1 : Env) (line : GoString)
    (h : readLine L env line = some env1) :
    env1.raw = env.raw ++ (unformattedLine L line).toList := by
  unfold readLine at h
  unfold unformattedLine
  by_cases hT : Trim line " \t".toList = []
  · simp only [hT, List.length_nil, gt_iff_lt, lt_self_iff_false, ↓reduceIte,
      Option.some.injEq] at h
    rw [← h]
    simp only [hT, ↓reduceIte, Option.toList, List.append_nil]
  · have hlen : 0 < (Trim line " \t".toList).length := List.length_pos.2 hT
    simp only [gt_iff_lt, hlen, ↓reduceIte] at h
    simp only [hT, ↓reduceIte]
    cases hN : NewRecord L (Trim line " \t".toList) with
    | none => rw [hN] at h; simp at h
    | some res =>
      obtain ⟨rec, err⟩ := res
      rw [hN] at h
      cases err with
      | some e => simp at h
      | none =>
        cases rec with
        | none =>
          simp only [Option.some.injEq] at h
          simp [← h]
        | some record =>
          simp only at h
          cases hA : env.db.Add L record with
          | mk res db1 =>
            obtain ⟨id, dup, err⟩ := res
            rw [hA] at h
            cases err with
            | some e => simp at h
            | none =>
              simp only [Option.some.injEq] at h
              simp [← h]

theorem read_raw (L : TimeLib) (env env1 : Env) (lines : List GoString)
    (h : read L env lines = some env1) :
    env1.raw = env.raw ++ lines.filterMap (unformattedLine L) := by
  induction lines generalizing env with
  | nil =>
    simp only [read, Option.some.injEq] at h
    simp [← h]
  | cons line lines ih =>
    simp only [read] at h
    cases h1 : readLine L env line with
    | none => rw [h1] at h; simp at h
    | some env2 =>
      rw [h1] at h
      rw [ih env2 h, readLine_raw L env env2 line h1, List.filterMap_cons]
      cases unformattedLine L line <;> simp

theorem readFiles_raw (L : TimeLib) (env env1 : Env) (files : List (List GoString))
    (h : readFiles L env files = some env1) :
    env1.raw = env.raw ++ files.flatten.filterMap (unformattedLine L) := by
  induction files generalizing env with
  | nil =>
    simp only [readFiles, Option.some.injEq] at h
    simp [← h]
  | cons file files ih =>
    simp only [readFiles] at h
    cases h1 : read L env file with
    | none => rw [h1] at h; simp at h
    | some env2 =>
      rw [h1] at h
      rw [ih env2 h, read_raw L env env2 file h1]
      simp

theorem writeRaw_eq (raw : List GoString) :
    writeRaw raw = (raw.map (fun line => line ++ "\n\n".toList)).flatten := by
  induction raw with
  | nil => rfl
  | cons a raw ih => simp [writeRaw, write, ih]

/-- The slice of the day name never panics: every name has three letters or more. -/
theorem renderRecord_eq {L : TimeLib} (C : Calendar L) (record : Record L) :
    renderRecord C record = some (recordLine C record) := by
  have hday : ∀ d : Fin 7, sliceTo? (WeekdayString d) 3 = some ((WeekdayString d).take 3) := by
    intro d
    fin_cases d <;> rfl
  simp only [renderRecord, hday, Option.bind_eq_bind, Option.some_bind, pure, recordLine,
    String.toList]

theorem writeRecords_eq {L : TimeLib} (C : Calendar L) (records : List (Record L)) :
    writeRecords C records =
      some (records.map (fun record => recordLine C record ++ "\n\n".toList)).flatten := by
  induction records with
  | nil => rfl
  | cons r records ih => simp [writeRecords, renderRecord_eq, ih, write]

theorem scanAll_of_parse (L : TimeLib)
    (rows : List (GoString × GoString × GoString × GoString))
    (h : ∀ row ∈ rows, ∃ t, L.Parse row.1 = .ok t) :
    ∃ recs, scanAll L rows = some recs := by
  induction rows with
  | nil => exact ⟨[], rfl⟩
  | cons row rows ih =>
    obtain ⟨stamp, name, node, message⟩ := row
    simp only [List.mem_cons, forall_eq_or_imp] at h
    obtain ⟨⟨t, ht⟩, hrest⟩ := h
    obtain ⟨recs, hrecs⟩ := ih hrest
    exact ⟨⟨t, name, node, message⟩ :: recs, by simp [scanAll, ht, hrecs]⟩

/-- Any two complete runs of the loop over `ReadRecord` receive the same records. -/
theorem Drains_unique {L : TimeLib} {rr : RecordReader L} {out out1 : List (Record L)}
    (h : Drains L rr out) (h1 : Drains L rr out1) : out1 = out := by
  obtain ⟨recs, hrecs, hout⟩ := Drains_eq h
  obtain ⟨recs1, hrecs1, hout1⟩ := Drains_eq h1
  rw [hrecs] at hrecs1
  rw [hout, hout1, Option.some.inj hrecs1]

/-- C14: the consolidated output that `run` writes is, first, every unformatted line
collected in `raw`, in the order read over all files and with repetitions, each
followed by a blank line, and only after all of them the stored records in the order
of the stream, each as `DATE-DAY-TIME-ZONE|NAME_NODE|MESSAGE` followed by a blank line.
And `run` does write it whenever reading the files ends without a panic, there is a
first file, and every stored time stamp text parses. -/
theorem C14_output_is_unformatted_lines_then_records (L : TimeLib) (C : Calendar L)
    (files : List (List GoString)) :
    (∀ out, run L C files = some out →
      ∃ env records, readFiles L ⟨Open, [], 0⟩ files = some env ∧
        env.raw = files.flatten.filterMap (unformattedLine L) ∧
        Drains L (NewRecordReader L env.db) records ∧
        (∀ records1, Drains L (NewRecordReader L env.db) records1 → records1 = records) ∧
        out = consolidated C env.raw records) ∧
    (∀ env, readFiles L ⟨Open, [], 0⟩ files = some env → files ≠ [] →
      (∀ row ∈ env.db.rows, ∃ t, L.Parse row.TimeStamp = .ok t) →
      ∃ out, run L C files = some out) := by
  constructor
  · intro out h
    unfold run at h
    cases hread : readFiles L ⟨Open, [], 0⟩ files with
    | none => rw [hread] at h; simp at h
    | some env =>
      rw [hread] at h
      simp only at h
      by_cases hlen : files.length = 0
      · simp [hlen] at h
      · simp only [hlen, ↓reduceIte] at h
        cases hdrain : drain L (2 * env.db.rows.length + 2) (NewRecordReader L env.db) with
        | none => rw [hdrain] at h; simp at h
        | some records =>
          rw [hdrain] at h
          simp only [writeRecords_eq, Option.map_some', Option.some.injEq] at h
          have hD := drain_Drains L _ _ _ hdrain
          refine ⟨env, records, rfl, ?_, hD, fun records1 h1 => Drains_unique hD h1, ?_⟩
          · simpa using readFiles_raw L ⟨Open, [], 0⟩ env files hread
          · rw [← h, writeRaw_eq, consolidated]
  · intro env hread hfiles hparse
    have hperm := QueryOrdered_perm env.db
    have hrows : ∀ row ∈ env.db.QueryOrdered, ∃ t, L.Parse row.1 = .ok t := by
      intro row hrow
      obtain ⟨r, hr, rfl⟩ := List.mem_map.1 (hperm.mem_iff.1 hrow)
      exact hparse r hr
    obtain ⟨recs, hrecs⟩ := scanAll_of_parse L env.db.QueryOrdered hrows
    have hlen : env.db.QueryOrdered.length = env.db.rows.length := by
      rw [hperm.length_eq, List.length_map]
    have hdrain : drain L (2 * env.db.rows.length + 2) (NewRecordReader L env.db) = some recs := by
      have := drain_eq L (2 * env.db.rows.length + 2) (NewRecordReader L env.db) recs rfl
        (by simpa [NewRecordReader, RecordReader.remaining] using hrecs)
        (by simp only [NewRecordReader, List.length_nil, Bool.false_eq_true, if_false, hlen]; omega)
      simpa [NewRecordReader] using this
    have hlen0 : ¬ files.length = 0 := by
      intro h0
      exact hfiles (List.length_eq_zero.1 h0)
    refine ⟨writeRaw env.raw ++
      (recs.map (fun record => recordLine C record ++ "\n\n".toList)).flatten, ?_⟩
    unfold run
    rw [hread]
    simp only [hlen0, ↓reduceIte, hdrain, writeRecords_eq, Option.map_some']

/-! ## The store is append-only -/

/-- C15: the store is append-only under `Add`.  For every store and record, a call of
`Add` that returns no error leaves every row that was stored in place and unchanged:
either it reports a duplicate and the store is the old one, or it reports none and the
rows are the old rows followed by exactly one new row, which holds the record's tuple.
(A call that returns an error leaves the store as it was.) -/
theorem C15_add_is_append_only (L : TimeLib) (db : DB) (r : Record L) :
    ((db.Add L r).1.2.2 = none →
      ((db.Add L r).1.2.1 = true ∧ (db.Add L r).2 = db) ∨
      ((db.Add L r).1.2.1 = false ∧
        ∃ row, (db.Add L r).2.rows = db.rows ++ [row] ∧ row.tuple = r.tuple ∧
          row.ID = (db.Add L r).1.1 ∧ ∀ old ∈ db.rows, old.ID ≠ row.ID)) ∧
    ((db.Add L r).1.2.2 ≠ none → (db.Add L r).2 = db) ∧
    (∀ (i : Nat) (old : Row), db.rows[i]? = some old → (db.Add L r).2.rows[i]? = some old) ∧
    (db.Add L r).2.rows.length ≤ db.rows.length + 1 := by
  rcases Add_cases L db r with ⟨id, h, _⟩ | ⟨_, _, h⟩ | ⟨_, _, err, h⟩
  · rw [h]
    refine ⟨fun _ => Or.inl ⟨rfl, rfl⟩, fun _ => rfl, fun i old hi => hi, by simp⟩
  · rw [h]
    refine ⟨fun _ => Or.inr ⟨rfl, _, rfl, rfl, rfl, ?_⟩, fun hne => absurd rfl hne, ?_, by simp⟩
    · intro old hold heq
      have := ID_le_lastID db hold
      simp only at heq
      omega
    · intro i old hi
      simp only
      have hlt : i < db.rows.length := by
        by_contra hge
        rw [List.getElem?_eq_none (by omega)] at hi
        simp at hi
      rw [List.getElem?_append_left hlt]
      exact hi
  · rw [h]
    refine ⟨fun hn => by simp at hn, fun _ => rfl, fun i old hi => hi, by simp⟩

/-! ## The record reader: after the end, and the size of the channel -/

/-- What a call of `ReadRecord` that answers `ok = false` says about the reader: no
panic, an empty channel that is closed, and the reader is left as it is. -/
theorem ReadRecord_exhausted {L : TimeLib} {rr rr1 : RecordReader L} {rec : Option (Record L)}
    (h : rr.ReadRecord = some ((rec, false), rr1)) :
    rec = none ∧ rr1 = rr ∧ rr.panicked = false ∧ rr.buffer = [] ∧ rr.closed = true := by
  obtain ⟨cursor, buffer, closed, panicked⟩ := rr
  cases panicked <;> cases buffer <;> cases closed <;>
    simp [RecordReader.ReadRecord] at h ⊢
  exact ⟨h.1.symm, h.2.symm⟩

/-- A reader whose channel is empty and closed does not move any more: `read` has
returned, and `ReadRecord` answers `nil, false` and leaves the reader as it is. -/
theorem Moves_of_exhausted {L : TimeLib} {rr rr1 : RecordReader L}
    (hp : rr.panicked = false) (hb : rr.buffer = []) (hc : rr.closed = true)
    (h : Moves L rr rr1) : rr1 = rr := by
  obtain ⟨cursor, buffer, closed, panicked⟩ := rr
  simp only at hp hb hc
  subst hp hb hc
  rcases h with h | ⟨res, h⟩
  · simp [readStep] at h
  · simp only [RecordReader.ReadRecord, Bool.false_eq_true, if_false, if_true,
      Option.some.injEq, Prod.mk.injEq] at h
    exact h.2.symm

/-- C16: once a `RecordReader` is exhausted, that is once `ReadRecord` has returned
`ok = false`, every later call of `ReadRecord`, after whatever moves of the two
goroutines, returns `nil, false` as well: it returns (it does not wait and the process
has not ended in a panic), it yields no record, and `read` has no step left. -/
theorem C16_exhausted_reader_stays_exhausted (L : TimeLib) (rr rr1 rr2 : RecordReader L)
    (rec : Option (Record L))
    (hend : rr.ReadRecord = some ((rec, false), rr1))
    (hlater : Relation.ReflTransGen (Moves L) rr1 rr2) :
    rec = none ∧ rr2.ReadRecord = some ((none, false), rr2) ∧ readStep L rr2 = none ∧
      rr2 = rr := by
  obtain ⟨hrec, h1, hp, hb, hc⟩ := ReadRecord_exhausted hend
  have hsame : rr2 = rr := by
    subst h1
    induction hlater with
    | refl => rfl
    | tail _ hmove ih =>
      rw [ih] at hmove
      exact Moves_of_exhausted hp hb hc hmove
  subst hsame
  refine ⟨hrec, ?_, ?_, rfl⟩
  · obtain ⟨cursor, buffer, closed, panicked⟩ := rr2
    simp only at hp hb hc
    subst hp hb hc
    simp [RecordReader.ReadRecord]
  · simp [readStep, hc]

/-- A move of the replay never makes the channel hold more than its capacity. -/
theorem Moves_buffer_le {L : TimeLib} {rr rr1 : RecordReader L}
    (hle : rr.buffer.length ≤ bufferSize) (h : Moves L rr rr1) :
    rr1.buffer.length ≤ bufferSize := by
  obtain ⟨cursor, buffer, closed, panicked⟩ := rr
  simp only at hle
  rcases h with h | ⟨res, h⟩
  · by_cases hstop : panicked = true ∨ closed = true
    · simp [readStep, hstop] at h
    · simp only [readStep, hstop, if_false] at h
      cases cursor with
      | nil =>
        simp only [Option.some.injEq] at h
        subst h
        exact hle
      | cons row rows =>
        obtain ⟨stamp, name, node, message⟩ := row
        simp only at h
        cases hparse : L.Parse stamp with
        | error err =>
          rw [hparse] at h
          simp only [Option.some.injEq] at h
          subst h
          exact hle
        | ok dt =>
          rw [hparse] at h
          by_cases hroom : buffer.length < bufferSize
          · simp only [hroom, if_true, Option.some.injEq] at h
            subst h
            simp only [List.length_append, List.length_singleton]
            omega
          · simp [hroom] at h
  · cases panicked with
    | true => simp [RecordReader.ReadRecord] at h
    | false =>
      cases buffer with
      | nil =>
        cases closed with
        | true =>
          simp only [RecordReader.ReadRecord, Bool.false_eq_true, if_false, if_true,
            Option.some.injEq, Prod.mk.injEq] at h
          rw [← h.2]
          exact hle
        | false => simp [RecordReader.ReadRecord] at h
      | cons b rest =>
        simp only [RecordReader.ReadRecord, Bool.false_eq_true, if_false, Option.some.injEq,
          Prod.mk.injEq] at h
        rw [← h.2]
        simp only [List.length_cons] at hle ⊢
        omega

/-- C17: at every point of a replay, whatever the rows of the store, at most 10
records wait in the channel between `read` and `ReadRecord`; when 10 records wait,
`read` sends no further record (a step of `read`, if there is one, closes the channel
or panics) and it cannot move at all when its next row parses: it waits for
`ReadRecord`. -/
theorem C17_at_most_ten_records_pending (L : TimeLib) (db : DB) (rr : RecordReader L)
    (hreach : Relation.ReflTransGen (Moves L) (NewRecordReader L db) rr) :
    rr.buffer.length ≤ 10 ∧
    (rr.buffer.length = 10 →
      (∀ rr1, readStep L rr = some rr1 → rr1.buffer = rr.buffer ∧ rr1.cursor = rr.cursor) ∧
      (∀ stamp name node message rows t, rr.cursor = (stamp, name, node, message) :: rows →
        L.Parse stamp = .ok t → readStep L rr = none)) := by
  have hle : rr.buffer.length ≤ bufferSize := by
    induction hreach with
    | refl => simp [NewRecordReader, bufferSize]
    | tail _ hmove ih => exact Moves_buffer_le ih hmove
  refine ⟨hle, fun hfull => ⟨?_, ?_⟩⟩
  · intro rr1 h
    obtain ⟨cursor, buffer, closed, panicked⟩ := rr
    simp only at hfull
    by_cases hstop : panicked = true ∨ closed = true
    · simp [readStep, hstop] at h
    · simp only [readStep, hstop, if_false] at h
      cases cursor with
      | nil =>
        simp only [Option.some.injEq] at h
        subst h
        exact ⟨rfl, rfl⟩
      | cons row rows =>
        obtain ⟨stamp, name, node, message⟩ := row
        simp only at h
        cases hparse : L.Parse stamp with
        | error err =>
          rw [hparse] at h
          simp only [Option.some.injEq] at h
          subst h
          exact ⟨rfl, rfl⟩
        | ok dt =>
          rw [hparse] at h
          simp [hfull, bufferSize] at h
  · intro stamp name node message rows t hcur hparse
    obtain ⟨cursor, buffer, closed, panicked⟩ := rr
    simp only at hfull hcur
    subst hcur
    by_cases hstop : panicked = true ∨ closed = true
    · simp [readStep, hstop]
    · simp [readStep, hstop, hparse, hfull, bufferSize]

/-! ## The parser: no panic, the bytes it ignores, name and node -/

theorem Split_of_not_mem (f : GoString) (sep : Char) (h : sep ∉ f) : Split f sep = [f] := by
  induction f with
  | nil => rfl
  | cons c f ih =>
    simp only [List.mem_cons, not_or] at h
    have hc : c ≠ sep := fun h1 => h.1 h1.symm
    simp [Split, hc, ih h.2]

/-- C18: `NewRecord` is total.  For every input it returns, without a panic: `getTime`
is called on the first field only when that is 23 bytes long, and then its three slices
are in range; the position `p` of the `_` satisfies `0 ≤ p < len(who)`, so `who[:p]` and
`who[p+1:]` are in range; and the offset `len(when)+len(who)+2` of the message does not
exceed `len(input)`. -/
theorem C18_NewRecord_never_panics (L : TimeLib) (input : GoString) :
    (∃ res, NewRecord L input = some res) ∧
    (∀ when : GoString, when.length = 23 →
      sliceTo? when 8 = some (when.take 8) ∧ slice? when 13 19 = some ((when.drop 13).take 6) ∧
      sliceFrom? when 20 = some (when.drop 20) ∧ ∃ res, getTime L when = some res) ∧
    (∀ who : GoString, Index who '_' ≠ -1 →
      0 ≤ Index who '_' ∧ Index who '_' < who.length ∧
      (∃ name, sliceTo? who (Index who '_') = some name) ∧
      ∃ node, sliceFrom? who (Index who '_' + 1) = some node) ∧
    (∀ when who : GoString, (Split input '|')[0]? = some when → (Split input '|')[1]? = some who →
      3 ≤ (Split input '|').length →
      (when.length : Int) + (who.length : Int) + 2 ≤ input.length ∧
      ∃ message, sliceFrom? input ((when.length : Int) + (who.length : Int) + 2) = some message) := by
  refine ⟨?_, ?_, ?_, ?_⟩
  · by_cases hlen : (Split input '|').length < 3
    · exact ⟨_, NewRecord_of_few_fields L input hlen⟩
    · obtain ⟨when, who, rest, h1, h2, hin, _⟩ := Split_fields input (by omega)
      rw [hin, NewRecord_of_fields L when who rest h1 h2]
      exact ⟨_, rfl⟩
  · intro when h
    refine ⟨sliceTo?_natCast when 8 (by omega), ?_, sliceFrom?_natCast when 20 (by omega),
      _, getTime_of_length L when h⟩
    rw [slice?_eq_some when 13 19 ⟨by omega, by omega, by omega⟩]
    rfl
  · intro who hne
    cases hi : indexByte? who '_' with
    | none => simp [Index, hi] at hne
    | some i =>
      obtain ⟨hlt, _, _⟩ := indexByte?_eq_some hi
      have hp : Index who '_' = (i : Int) := by simp [Index, hi]
      rw [hp]
      refine ⟨by omega, by omega, ⟨_, sliceTo?_natCast who i (by omega)⟩, who.drop (i + 1), ?_⟩
      have := sliceFrom?_natCast who (i + 1) (by omega)
      simpa using this
  · intro when who h0 h1 h3
    obtain ⟨when1, who1, rest, _, _, hin, hsplit⟩ := Split_fields input h3
    rw [hsplit] at h0 h1
    simp only [List.getElem?_cons_zero, List.getElem?_cons_succ, Option.some.injEq] at h0 h1
    subst h0 h1
    have hlen : when1.length + who1.length + 2 ≤ input.length := by
      rw [hin]
      simp only [List.length_append, List.length_cons]
      omega
    refine ⟨by exact_mod_cast hlen, input.drop (when1.length + who1.length + 2), ?_⟩
    have := sliceFrom?_natCast input (when1.length + who1.length + 2) hlen
    simpa using this

/-- The layout text is made of the bytes 0-7, 13-18 and 20-22 of a token of 23 bytes:
two such tokens that agree at these bytes have the same layout text. -/
theorem layoutText_congr (when1 when2 : GoString) (h1 : when1.length = 23)
    (h2 : when2.length = 23)
    (hsame : ∀ i : Nat, i < 23 → i ≠ 8 → i ≠ 9 → i ≠ 10 → i ≠ 11 → i ≠ 12 → i ≠ 19 →
      when1[i]? = when2[i]?) :
    layoutText when1 = layoutText when2 := by
  have ha : when1.take 8 = when2.take 8 := by
    apply List.ext_getElem?
    intro n
    by_cases hn : n < 8
    · rw [List.getElem?_take_of_lt hn, List.getElem?_take_of_lt hn]
      exact hsame n (by omega) (by omega) (by omega) (by omega) (by omega) (by omega) (by omega)
    · rw [List.getElem?_eq_none (by simp; omega), List.getElem?_eq_none (by simp; omega)]
  have hb : (when1.drop 13).take 6 = (when2.drop 13).take 6 := by
    apply List.ext_getElem?
    intro n
    by_cases hn : n < 6
    · rw [List.getElem?_take_of_lt hn, List.getElem?_take_of_lt hn, List.getElem?_drop,
        List.getElem?_drop]
      exact hsame (13 + n) (by omega) (by omega) (by omega) (by omega) (by omega) (by omega)
        (by omega)
    · rw [List.getElem?_eq_none (by simp; omega), List.getElem?_eq_none (by simp; omega)]
  have hc : when1.drop 20 = when2.drop 20 := by
    apply List.ext_getElem?
    intro n
    rw [List.getElem?_drop, List.getElem?_drop]
    by_cases hn : n < 3
    · exact hsame (20 + n) (by omega) (by omega) (by omega) (by omega) (by omega) (by omega)
        (by omega)
    · rw [List.getElem?_eq_none (by omega), List.getElem?_eq_none (by omega)]
  rw [layoutText, layoutText, ha, hb, hc]

/-- C19: the parser ignores the weekday and the separators of the time stamp token.
For two input lines with a first field of 23 bytes each that are equal except at the
bytes 8, 9-11, 12 and 19 of that field, `NewRecord` returns the same result: the same
error, the same answer that the line is not a record, or records with the same time,
name, node and message. -/
theorem C19_weekday_and_separators_are_ignored (L : TimeLib) (when1 when2 after : GoString)
    (h1 : when1.length = 23) (h2 : when2.length = 23)
    (hp1 : '|' ∉ when1) (hp2 : '|' ∉ when2)
    (hafter : after = [] ∨ after.head? = some '|')
    (hsame : ∀ i : Nat, i < 23 → i ≠ 8 → i ≠ 9 → i ≠ 10 → i ≠ 11 → i ≠ 12 → i ≠ 19 →
      when1[i]? = when2[i]?) :
    NewRecord L (when1 ++ after) = NewRecord L (when2 ++ after) := by
  have hlay := layoutText_congr when1 when2 h1 h2 hsame
  cases after with
  | nil =>
    rw [List.append_nil, List.append_nil,
      NewRecord_of_few_fields L when1 (by rw [Split_of_not_mem _ _ hp1]; simp),
      NewRecord_of_few_fields L when2 (by rw [Split_of_not_mem _ _ hp2]; simp)]
  | cons c t =>
    have hc : c = '|' := by
      rcases hafter with h | h
      · simp at h
      · simpa using h
    subst hc
    by_cases hlen : (Split t '|').length < 2
    · rw [NewRecord_of_few_fields L _ (by rw [Split_append_sep _ _ _ hp1]; simp; omega),
        NewRecord_of_few_fields L _ (by rw [Split_append_sep _ _ _ hp2]; simp; omega)]
    · obtain ⟨who, fs, hsplit, hwho, hrest⟩ := Split_decomp t '|'
      rcases hrest with ⟨hfs, _⟩ | ⟨rest, ht, _⟩
      · rw [hsplit, hfs] at hlen
        simp at hlen
      · subst ht
        rw [NewRecord_of_fields L when1 who rest hp1 hwho,
          NewRecord_of_fields L when2 who rest hp2 hwho, h1, h2, hlay]

/-- C20: `NewRecord` splits the second field at its first `_`.  For every input line
for which it returns a record, the second field is the name, a `_` and the node; the
name holds no `_` (so the `_` is the first of the field) and no `|`, and the node, which
may hold further `_`, holds no `|`. -/
theorem C20_name_and_node_split_at_first_underscore (L : TimeLib) (input : GoString)
    (r : Record L) (e : Option Error) (h : NewRecord L input = some (some r, e)) :
    ∃ when who rest, '|' ∉ when ∧ '|' ∉ who ∧
      input = when ++ ['|'] ++ who ++ ['|'] ++ rest ∧
      (Split input '|')[1]? = some who ∧
      who = r.Name ++ ['_'] ++ r.Node ∧ '_' ∉ r.Name ∧ '|' ∉ r.Name ∧ '|' ∉ r.Node ∧
      Index who '_' = r.Name.length := by
  obtain ⟨when, who, rest, h1, h2, hin⟩ := NewRecord_record_three_fields L input r e h
  subst hin
  obtain ⟨_, _, t, i, _, hi, hr⟩ := NewRecord_record_fields L when who rest h1 h2 r e h
  obtain ⟨hlt, hwho, hname⟩ := indexByte?_eq_some hi
  refine ⟨when, who, rest, h1, h2, by simp, ?_, ?_, ?_, ?_, ?_, ?_⟩
  · rw [Split_append_sep _ _ _ h1, Split_append_sep _ _ _ h2]
    simp
  · rw [hr]
    simp only
    conv_lhs => rw [hwho]
    simp
  · rw [hr]
    exact hname
  · rw [hr]
    exact fun hmem => h2 (List.mem_of_mem_take hmem)
  · rw [hr]
    exact fun hmem => h2 (List.mem_of_mem_drop hmem)
  · rw [hr]
    simp only [Index, hi, List.length_take]
    congr 1
    omega

/-! ## The later properties on concrete inputs -/

theorem readSteps_reach (L : TimeLib) (n : Nat) (rr : RecordReader L) :
    Relation.ReflTransGen (Moves L) rr (readSteps L n rr) := by
  induction n generalizing rr with
  | zero => exact Relation.ReflTransGen.refl
  | succ n ih =>
    simp only [readSteps]
    cases h : readStep L rr with
    | none => exact Relation.ReflTransGen.refl
    | some rr1 => exact Relation.ReflTransGen.head (Or.inl h) (ih rr1)

/-- C11 as stated fails: on a machine that runs on UTC the line
`20231329-Thu-143022-UTC|svcA|hello` has three fields, a second field without `_` and a
first field of 23 bytes that names a month 13, and `NewRecord` returns an error for it
and not the answer that it is not a record. -/
theorem C11_no_underscore_and_bad_time_is_an_error :
    (Split badMonthLine '|')[1]? = some "svcA".toList ∧ '_' ∉ "svcA".toList ∧
    NewRecord utcLib badMonthLine = some (none, some "month out of range") ∧
    NewRecord utcLib badMonthLine ≠ some (none, none) := by
  have h : NewRecord utcLib badMonthLine = some (none, some "month out of range") := rfl
  refine ⟨rfl, by decide, h, ?_⟩
  rw [h]
  simp

/-- C11 at a line with a good time stamp token and no `_` in the second field, which is
not a record, and at the line with the month 13, which is an error. -/
theorem C11_witness :
    NewRecord utcLib noUnderscoreLine = some (none, none) ∧
    ∃ err, utcLib.Parse (layoutText ((Split badMonthLine '|').headD [])) = .error err ∧
      NewRecord utcLib badMonthLine = some (none, some err) :=
  ⟨(C11_no_underscore_is_not_a_record_unless_time_fails utcLib noUnderscoreLine "svcA".toList
      rfl (by decide)).2
      (fun h => by
        obtain ⟨_, _, err, herr⟩ := h
        have hok : utcLib.Parse (layoutText ((Split noUnderscoreLine '|').headD [])) =
            .ok ⟨1686839422, "UTC".toList, 0⟩ := rfl
        rw [hok] at herr
        cases herr),
    (C11_no_underscore_is_not_a_record_unless_time_fails utcLib badMonthLine "svcA".toList
      rfl (by decide)).1 ⟨by decide, by decide, "month out of range", rfl⟩⟩

/-- C12 at the line with the month 13: three fields, a first field of 23 bytes that
does not parse, and `NewRecord` returns the error. -/
theorem C12_witness : ∃ err, NewRecord utcLib badMonthLine = some (none, some err) :=
  (C12_error_iff_time_stamp_fails_to_parse utcLib badMonthLine).1.2
    ⟨by decide, by decide, "month out of range", rfl⟩

/-- C13 as stated fails: the line ` not a valid line` read with a space before it and a
tab after it is classified as not a record, and the text kept in `raw` and written to
the output is `not a valid line`, without the space and the tab. -/
theorem C13_padded_line_is_not_kept_verbatim :
    NewRecord utcLib paddedLine = some (none, none) ∧
    NewRecord utcLib (Trim paddedLine " \t".toList) = some (none, none) ∧
    (readLine utcLib ⟨Open, [], 0⟩ paddedLine).map (fun env => env.raw) =
      some ["not a valid line".toList] ∧
    "not a valid line".toList ≠ paddedLine ∧
    run utcLib (goCalendar utcLocation) [[paddedLine]] = some "not a valid line\n\n".toList :=
  ⟨rfl, rfl, rfl, by decide, rfl⟩

/-- C13 at the line read with a space before it and a tab after it. -/
theorem C13_witness :
    readLine utcLib ⟨Open, [], 0⟩ paddedLine =
      some ⟨Open, [] ++ [Trim paddedLine " \t".toList], 0⟩ ∧
    Trim paddedLine " \t".toList = "not a valid line".toList ∧
    Trim "not a valid line".toList " \t".toList = "not a valid line".toList :=
  ⟨(C13_unformatted_line_is_kept_trimmed utcLib ⟨Open, [], 0⟩ paddedLine (by decide) rfl).1,
    rfl,
    (C13_unformatted_line_is_kept_trimmed utcLib ⟨Open, [], 0⟩ "not a valid line".toList
      (by decide) rfl).2.2.2.2.1 (by decide) (by decide)⟩

/-- C14 at two input files: the two unformatted lines come first, in the order read,
then the three records in the order of their time stamps. -/
theorem C14_witness :
    run utcLib (goCalendar utcLocation) twoFiles =
      some ("not a valid line\n\nx|y\n\n20230615-Thu-133022-UTC|svcB_n2|hello|x\n\n" ++
        "20230615-Thu-143022-UTC|svcA_n1|hello\n\n").toList ∧
    ∃ env records, readFiles utcLib ⟨Open, [], 0⟩ twoFiles = some env ∧
      env.raw = twoFiles.flatten.filterMap (unformattedLine utcLib) ∧
      Drains utcLib (NewRecordReader utcLib env.db) records ∧
      (∀ records1, Drains utcLib (NewRecordReader utcLib env.db) records1 →
        records1 = records) ∧
      ("not a valid line\n\nx|y\n\n20230615-Thu-133022-UTC|svcB_n2|hello|x\n\n" ++
        "20230615-Thu-143022-UTC|svcA_n1|hello\n\n").toList =
        consolidated (goCalendar utcLocation) env.raw records :=
  ⟨rfl, (C14_output_is_unformatted_lines_then_records utcLib (goCalendar utcLocation)
    twoFiles).1 _ rfl⟩

/-- C15 at the store of the scenario: adding the `world` record appends one row. -/
theorem C15_witness :
    ∃ row, ((addAll utcLib Open [helloRecord]).2.Add utcLib worldRecord).2.rows =
        (addAll utcLib Open [helloRecord]).2.rows ++ [row] ∧ row.tuple = worldRecord.tuple ∧
      row.ID = ((addAll utcLib Open [helloRecord]).2.Add utcLib worldRecord).1.1 ∧
      ∀ old ∈ (addAll utcLib Open [helloRecord]).2.rows, old.ID ≠ row.ID :=
  ((C15_add_is_append_only utcLib (addAll utcLib Open [helloRecord]).2 worldRecord).1
    rfl).resolve_left (fun h => absurd h.1 (by decide)) |>.2

/-- C16 at the reader of the scenario's store once it is drained: two later calls. -/
theorem C16_witness :
    (⟨[], [], true, false⟩ : RecordReader utcLib).ReadRecord =
      some ((none, false), ⟨[], [], true, false⟩) ∧
    readStep utcLib ⟨[], [], true, false⟩ = none :=
  have h := C16_exhausted_reader_stays_exhausted utcLib ⟨[], [], true, false⟩
    ⟨[], [], true, false⟩ ⟨[], [], true, false⟩ none rfl
    (Relation.ReflTransGen.single (Or.inr ⟨(none, false), rfl⟩))
  ⟨h.2.1, h.2.2.1⟩

/-- C17 at a store of twelve rows whose reader has been left to `read` alone: after
ten steps, and after twenty, ten records wait in the channel, two rows are left to
scan, and `read` cannot move. -/
theorem C17_witness :
    (readSteps utcLib 10
      (NewRecordReader utcLib (addAll utcLib Open twelveRecords).2)).buffer.length = 10 ∧
    (readSteps utcLib 20
      (NewRecordReader utcLib (addAll utcLib Open twelveRecords).2)).buffer.length = 10 ∧
    (readSteps utcLib 20
      (NewRecordReader utcLib (addAll utcLib Open twelveRecords).2)).cursor.length = 2 ∧
    readStep utcLib (readSteps utcLib 20
      (NewRecordReader utcLib (addAll utcLib Open twelveRecords).2)) = none ∧
    (readSteps utcLib 20
      (NewRecordReader utcLib (addAll utcLib Open twelveRecords).2)).buffer.length ≤ 10 :=
  ⟨rfl, rfl, rfl, rfl,
    (C17_at_most_ten_records_pending utcLib (addAll utcLib Open twelveRecords).2 _
      (readSteps_reach utcLib 20 _)).1⟩

/-- C18 at the empty line and at the scenario's line: `NewRecord` returns. -/
theorem C18_witness :
    NewRecord utcLib [] = some (none, none) ∧
    NewRecord utcLib helloLine = some (some helloRecord, none) ∧
    getTime utcLib "short".toList = none ∧
    ∃ res, NewRecord utcLib "|".toList = some res :=
  ⟨rfl, rfl, rfl, (C18_NewRecord_never_panics utcLib "|".toList).1⟩

/-- C19 at the scenario's line and the same line with the weekday `Mon` and the bytes
`x`, `+` and `/` for the hyphens: the same record. -/
theorem C19_witness :
    NewRecord utcLib mondayLine = some (some helloRecord, none) ∧
    NewRecord utcLib helloLine = NewRecord utcLib mondayLine :=
  ⟨rfl,
    C19_weekday_and_separators_are_ignored utcLib "20230615-Thu-143022-UTC".toList
      "20230615xMon+143022/UTC".toList "|svcA_n1|hello".toList rfl rfl (by decide) (by decide)
      (Or.inr rfl)
      (by
        intro i hi h8 h9 h10 h11 h12 h19
        interval_cases i <;> first | rfl | contradiction)⟩

/-- C20 at a second field `svc_A_n1`, which gives the name `svc` and the node `A_n1`,
and at a second field `_`, which gives an empty name and an empty node. -/
theorem C20_witness :
    NewRecord utcLib twoUnderscoresLine =
      some (some ⟨⟨1686839422, "UTC".toList, 0⟩, "svc".toList, "A_n1".toList,
        "hello".toList⟩, none) ∧
    NewRecord utcLib loneUnderscoreLine =
      some (some ⟨⟨1686839422, "UTC".toList, 0⟩, [], [], []⟩, none) ∧
    ∃ when who rest, '|' ∉ when ∧ '|' ∉ who ∧
      twoUnderscoresLine = when ++ ['|'] ++ who ++ ['|'] ++ rest ∧
      (Split twoUnderscoresLine '|')[1]? = some who ∧
      who = "svc".toList ++ ['_'] ++ "A_n1".toList ∧ '_' ∉ "svc".toList ∧
      '|' ∉ "svc".toList ∧ '|' ∉ "A_n1".toList ∧
      Index who '_' = ("svc".toList).length :=
  ⟨rfl, rfl,
    C20_name_and_node_split_at_first_underscore utcLib twoUnderscoresLine
      ⟨⟨1686839422, "UTC".toList, 0⟩, "svc".toList, "A_n1".toList, "hello".toList⟩ none rfl⟩

end Merge
